import Mathlib

/-!
Verification development for the FileManagerNodeJs repository.

The development shallowly embeds the command-dispatch / path-validation layer
of `src/fileManager.js` together with the streaming service operations
(`services/copyFileToDest.js`, `compressFile`, `decompressFile`,
`services/calculateHash.js`, `services/readFileContent.js`,
`services/deleteFile.js`, `createFile`, `services/getDirectoryContent.js`).

Modelling conventions:
* Byte strings are `List Nat`.
* The filesystem is a finite map from resolved absolute paths to file
  contents, plus a set of directories.  Resolved paths are represented as
  segment lists (`List String`); the functions of `node:path` (`join`,
  `normalize`, `basename`) are modelled on POSIX strings exactly as the
  code uses them (trailing-separator preservation, which no code path
  relies on, is not modelled).
* `fs.open`/stream plumbing is modelled with an explicit open-handle
  counter so that handle-release properties are statable.  `fs.open` on a
  path in `'w'` mode truncates the target; `'wx'` is the exclusive-create
  primitive used by `createFile`.
* The external brotli codec of `node:zlib` and the SHA-256 accumulator of
  `node:crypto` are parameters of the embedded operations (the repository
  only pipes bytes through them); `String.prototype.split(' ')` and
  `localeCompare` are modelled by explicit executable functions
  (`splitChar`, `localeCompareLe`, the latter as code-point order).
-/

deriving instance DecidableEq for Except

namespace FM

/-! ### POSIX path strings, as used via node:path -/

/-- Split a character list at every occurrence of the separator, keeping
empty parts, like the string split used by the JS code. -/
def splitCharAux (sep : Char) : List Char → List (List Char)
  | [] => [[]]
  | c :: cs =>
    if c = sep then [] :: splitCharAux sep cs
    else match splitCharAux sep cs with
      | [] => [[c]]
      | h :: t => (c :: h) :: t

/-- JS `s.split(sep)` for a one-character separator. -/
def splitChar (sep : Char) (s : String) : List String :=
  (splitCharAux sep s.data).map String.mk

/-- Path components of a POSIX path string, with empty components dropped
(consecutive or trailing separators) but `.` and `..` kept. -/
def rawSegs (p : String) : List String :=
  (splitChar '/' p).filter (fun s => s != "")

/-- Path components relevant for resolution: additionally drops `.`. -/
def segs (p : String) : List String :=
  (splitChar '/' p).filter (fun s => s != "" && s != ".")

/-- A path is absolute iff its first character is the separator. -/
def isAbs (p : String) : Bool :=
  p.data.head? = some '/'

/-- One resolution step for an absolute path: `..` pops, anything else is
pushed. -/
def stepAbs (st : List String) (s : String) : List String :=
  if s = ".." then st.dropLast else st ++ [s]

/-- Resolve the components of an absolute path. -/
def procAbs (l : List String) : List String :=
  l.foldl stepAbs []

/-- One resolution step for a relative path: `..` is kept when there is
nothing to pop. -/
def stepRel (st : List String) (s : String) : List String :=
  if s = ".." then
    (if st = [] ∨ st.getLast? = some ".." then st ++ [s] else st.dropLast)
  else st ++ [s]

/-- Resolve the components of a relative path. -/
def procRel (l : List String) : List String :=
  l.foldl stepRel []

/-- Join segment lists back into a path body with separators. -/
def joinSegsData : List String → List Char
  | [] => []
  | [s] => s.data
  | s :: rest => s.data ++ '/' :: joinSegsData rest

/-- Render resolved components of an absolute path. -/
def renderAbs (st : List String) : String :=
  String.mk ('/' :: joinSegsData st)

/-- Render resolved components of a relative path. -/
def renderRel (st : List String) : String :=
  if st = [] then "." else String.mk (joinSegsData st)

/-- node:path `path.normalize` (also `path.join` with a single argument),
POSIX flavour. -/
def normalize (p : String) : String :=
  if isAbs p then renderAbs (procAbs (segs p)) else renderRel (procRel (segs p))

/-- node:path `path.join(a, b)`: non-empty parts are joined with a
separator and the result is normalized. -/
def join2 (a b : String) : String :=
  if a = "" then (if b = "" then "." else normalize b)
  else if b = "" then normalize a
  else normalize (a ++ "/" ++ b)

/-- node:path `path.basename(p)`: the last non-empty component. -/
def basename (p : String) : String :=
  (rawSegs p).getLast?.getD ""

/-- Whether `post` is a suffix of `s`. -/
def strEndsWith (s post : String) : Bool :=
  post.data.isSuffixOf s.data

/-- Remove a suffix of the given length from the end of a string. -/
def dropSuffix (s post : String) : String :=
  String.mk (s.data.take (s.data.length - post.data.length))

/-- node:path `path.basename(p, ext)`: the basename, with `ext` stripped
when the basename ends with `ext` but is not `ext` itself. -/
def basenameExt (p ext : String) : String :=
  let b := basename p
  if b != ext && strEndsWith b ext then dropSuffix b ext else b

/-- Resolve a path string against the absolute working directory into the
canonical segment-list key used by the filesystem model (what the kernel
does with the strings node passes to it). -/
def resolveSegs (cwd p : String) : List String :=
  if isAbs p then procAbs (segs p) else procAbs (segs cwd ++ segs p)

/-! ### Filesystem and I/O state -/

/-- Resolved absolute paths, as segment lists. -/
abbrev PathKey := List String

/-- The local filesystem: files with byte contents, and directories. -/
structure FileSystem where
  files : List (PathKey × List Nat)
  dirs : List PathKey
deriving Repr, DecidableEq

/-- Content of the file at a key, if one exists. -/
def lookupFile (fs : FileSystem) (k : PathKey) : Option (List Nat) :=
  fs.files.lookup k

/-- Whether a directory exists at the key. -/
def isDirB (fs : FileSystem) (k : PathKey) : Bool :=
  fs.dirs.contains k

/-- Create or overwrite the file at a key. -/
def setFile (fs : FileSystem) (k : PathKey) (c : List Nat) : FileSystem :=
  { fs with files := (k, c) :: fs.files.filter (fun e => e.1 != k) }

/-- Remove the file at a key. -/
def removeFile (fs : FileSystem) (k : PathKey) : FileSystem :=
  { fs with files := fs.files.filter (fun e => e.1 != k) }

/-- `fs.access(p)`: the path, resolved against the working directory,
denotes an existing file or directory. -/
def fsAccessB (cwd : String) (fs : FileSystem) (p : String) : Bool :=
  (lookupFile fs (resolveSegs cwd p)).isSome || isDirB fs (resolveSegs cwd p)

/-- Low-level I/O errors surfaced by the node API. -/
inductive IoError
  | enoent
  | eexist
  | eisdir
  | codecError
deriving Repr, DecidableEq

/-- Process state during one operation: the filesystem plus the number of
file handles currently open. -/
structure IOState where
  fs : FileSystem
  openHandles : Nat
deriving Repr, DecidableEq

/-- `fs.open(p)` for reading: on success one more handle is open and the
content is captured. -/
def openRead (cwd : String) (st : IOState) (p : String) :
    Except IoError (IOState × List Nat) :=
  match lookupFile st.fs (resolveSegs cwd p) with
  | some c => .ok ({ st with openHandles := st.openHandles + 1 }, c)
  | none =>
    if isDirB st.fs (resolveSegs cwd p) then .error .eisdir else .error .enoent

/-- Whether `fs.open(p)` for reading would succeed with file content. -/
def canOpenReadB (cwd : String) (fs : FileSystem) (p : String) : Bool :=
  (lookupFile fs (resolveSegs cwd p)).isSome

/-- `fs.open(p, 'w')`: fails on a directory or when the parent directory is
missing; otherwise truncates the target and opens a handle. -/
def openWrite (cwd : String) (st : IOState) (p : String) :
    Except IoError IOState :=
  if isDirB st.fs (resolveSegs cwd p) then .error .eisdir
  else if isDirB st.fs (resolveSegs cwd p).dropLast then
    .ok { fs := setFile st.fs (resolveSegs cwd p) [],
          openHandles := st.openHandles + 1 }
  else .error .enoent

/-- Whether `fs.open(p, 'w')` would succeed. -/
def canOpenWriteB (cwd : String) (fs : FileSystem) (p : String) : Bool :=
  !(isDirB fs (resolveSegs cwd p)) && isDirB fs (resolveSegs cwd p).dropLast

/-! ### Streaming service operations (src/services) -/

/-- services/copyFileToDest.js: open the source for reading, open
`path.join(targetDest, fileName)` in overwrite mode, pipe the bytes across
and close both handles.  A failure of the second `fs.open` rejects before
the `closeFiles` callback is installed, so the source handle stays open in
that case, exactly as in the source. -/
def copyFileToDest (cwd : String) (st : IOState) (fileName targetDest : String) :
    Except IoError Unit × IOState :=
  let copiedFilePath := join2 targetDest fileName
  match openRead cwd st fileName with
  | .error e => (.error e, st)
  | .ok (st₁, content) =>
    match openWrite cwd st₁ copiedFilePath with
    | .error e => (.error e, st₁)
    | .ok st₂ =>
      let st₃ := { st₂ with
        fs := setFile st₂.fs (resolveSegs cwd copiedFilePath) content }
      (.ok (), { st₃ with openHandles := st₃.openHandles - 2 })

/-- compressFile: derive `path.join(targetPath, basename(filePath) + '.br')`,
open source and destination, pipe through the brotli compressor `comp`
(a parameter: the codec lives in node:zlib), close both handles. -/
def compressFile (comp : List Nat → List Nat) (cwd : String) (st : IOState)
    (filePath targetPath : String) : Except IoError Unit × IOState :=
  let sourceFile := basename filePath
  let compressedFilePath := join2 targetPath (sourceFile ++ ".br")
  match openRead cwd st filePath with
  | .error e => (.error e, st)
  | .ok (st₁, content) =>
    match openWrite cwd st₁ compressedFilePath with
    | .error e => (.error e, st₁)
    | .ok st₂ =>
      let st₃ := { st₂ with
        fs := setFile st₂.fs (resolveSegs cwd compressedFilePath) (comp content) }
      (.ok (), { st₃ with openHandles := st₃.openHandles - 2 })

/-- decompressFile: `sourcePath = path.join(filePath)`, output name is
`path.basename(sourcePath, '.br')`, destination opened in overwrite mode,
bytes piped through the brotli decompressor `decomp` (a parameter; `none`
models a codec error on an invalidly encoded stream, which closes both
handles and rejects). -/
def decompressFile (decomp : List Nat → Option (List Nat)) (cwd : String)
    (st : IOState) (filePath targetPath : String) :
    Except IoError Unit × IOState :=
  let sourcePath := normalize filePath
  let sourceFile := basenameExt sourcePath ".br"
  let decompressedFilePath := join2 targetPath sourceFile
  match openRead cwd st sourcePath with
  | .error e => (.error e, st)
  | .ok (st₁, content) =>
    match openWrite cwd st₁ decompressedFilePath with
    | .error e => (.error e, st₁)
    | .ok st₂ =>
      match decomp content with
      | none => (.error .codecError, { st₂ with openHandles := st₂.openHandles - 2 })
      | some dc =>
        let st₃ := { st₂ with
          fs := setFile st₂.fs (resolveSegs cwd decompressedFilePath) dc }
        (.ok (), { st₃ with openHandles := st₃.openHandles - 2 })

/-- services/readFileContent.js: open, stream every chunk to stdout, close
the handle on end or error.  The returned bytes are what was written to the
console. -/
def readFileContent (cwd : String) (st : IOState) (filePath : String) :
    Except IoError (List Nat) × IOState :=
  match openRead cwd st filePath with
  | .error e => (.error e, st)
  | .ok (st₁, content) =>
    (.ok content, { st₁ with openHandles := st₁.openHandles - 1 })

/-- services/calculateHash.js: open `path.join(filePath)`, fold the chunks
through the digest accumulator `hashFn` (a parameter: SHA-256 lives in
node:crypto), close the handle, return the hex digest. -/
def calculateHash (hashFn : List Nat → String) (cwd : String) (st : IOState)
    (filePath : String) : Except IoError String × IOState :=
  match openRead cwd st (normalize filePath) with
  | .error e => (.error e, st)
  | .ok (st₁, content) =>
    (.ok (hashFn content), { st₁ with openHandles := st₁.openHandles - 1 })

/-- services/deleteFile.js: `fs.unlink(filePath)`; fails on a directory or
a missing target and in those cases changes nothing. -/
def deleteFile (cwd : String) (st : IOState) (filePath : String) :
    Except IoError Unit × IOState :=
  let k := resolveSegs cwd filePath
  if (lookupFile st.fs k).isSome then (.ok (), { st with fs := removeFile st.fs k })
  else if isDirB st.fs k then (.error .eisdir, st)
  else (.error .enoent, st)

/-- createFile: `fs.open(filePath, 'wx')` — the exclusive-create flag makes
the open itself fail with EEXIST when the target already exists — then the
content (the empty string at every call site) is written and the handle
closed. -/
def createFile (cwd : String) (st : IOState) (filePath : String)
    (content : List Nat) : Except IoError Unit × IOState :=
  let k := resolveSegs cwd filePath
  if (lookupFile st.fs k).isSome || isDirB st.fs k then (.error .eexist, st)
  else if isDirB st.fs k.dropLast then
    (.ok (), { st with fs := setFile st.fs k content })
  else (.error .enoent, st)

/-- renameFile: `fs.rename(prevName, newName)`; fails when the source file
is missing, the destination is a directory or the destination parent does
not exist; otherwise atomically moves the content. -/
def renameFile (cwd : String) (st : IOState) (prevName newName : String) :
    Except IoError Unit × IOState :=
  let kOld := resolveSegs cwd prevName
  let kNew := resolveSegs cwd newName
  match lookupFile st.fs kOld with
  | none => (.error .enoent, st)
  | some c =>
    if isDirB st.fs kNew then (.error .eisdir, st)
    else if isDirB st.fs kNew.dropLast then
      (.ok (), { st with fs := setFile (removeFile st.fs kOld) kNew c })
    else (.error .enoent, st)

/-! ### Directory listing (services/getDirectoryContent.js) -/

/-- Kind reported by `lstat` for a directory entry. -/
inductive EntryKind
  | directory
  | file
  | other
deriving Repr, DecidableEq

/-- Kind kept in a listing row (entries of other kinds are dropped). -/
inductive EntryType
  | directory
  | file
deriving Repr, DecidableEq

/-- One row of the `ls` table. -/
structure DirEntry where
  Name : String
  entryType : EntryType
deriving Repr, DecidableEq

/-- Map one readdir entry to a listing row: directories and files keep
their kind, anything else becomes `null` and is filtered out. -/
def classifyEntry (e : String × EntryKind) : Option DirEntry :=
  match e.2 with
  | .directory => some ⟨e.1, .directory⟩
  | .file => some ⟨e.1, .file⟩
  | .other => none

/-- Code-point comparison of character lists; the model of
`String.prototype.localeCompare` returning a non-positive value. -/
def charListLe : List Char → List Char → Bool
  | [], _ => true
  | _ :: _, [] => false
  | a :: as, b :: bs =>
    if a.toNat < b.toNat then true
    else if b.toNat < a.toNat then false
    else charListLe as bs

/-- String comparison used for listing names. -/
def localeCompareLe (a b : String) : Bool :=
  charListLe a.data b.data

/-- Comparator `sortByTypeAndName`: same kind compares by name, otherwise
directories come first. -/
def sortByTypeAndName (previous next : DirEntry) : Bool :=
  match previous.entryType, next.entryType with
  | .directory, .file => true
  | .file, .directory => false
  | _, _ => localeCompareLe previous.Name next.Name

/-- Insert into a list sorted by `le`. -/
def orderedInsert (le : DirEntry → DirEntry → Bool) (a : DirEntry) :
    List DirEntry → List DirEntry
  | [] => [a]
  | b :: l => if le a b then a :: b :: l else b :: orderedInsert le a l

/-- The comparison sort applied by `Array.prototype.sort(comparator)`. -/
def sortEntries (le : DirEntry → DirEntry → Bool) : List DirEntry → List DirEntry
  | [] => []
  | a :: l => orderedInsert le a (sortEntries le l)

/-- getDirectoryContent: classify every readdir entry, drop the `null`
rows, sort with `sortByTypeAndName`. -/
def getDirectoryContent (entries : List (String × EntryKind)) : List DirEntry :=
  let items := entries.map classifyEntry
  let filteredItems := items.filterMap id
  sortEntries sortByTypeAndName filteredItems

/-! ### Dispatcher layer (src/fileManager.js, final version) -/

/-- Reasons attached to an `Invalid input` error. -/
inductive InvalidReason
  | missingOperand
  | tooManyArguments
  | unknownCommand (name : String)
  | io (e : IoError)
deriving Repr, DecidableEq

/-- Errors reported by the FileManager command layer. -/
inductive FmError
  | invalidInput (r : InvalidReason)
  | operationFailed (e : IoError)
deriving Repr, DecidableEq

/-- getValidatedPath: `path.join(specifiedPath)` normalizes the argument,
`fs.access` checks it (resolving relative paths against the process
working directory); on success the normalized path itself is returned,
otherwise the failure surfaces as `Invalid input`. -/
def getValidatedPath (cwd : String) (fs : FileSystem) (specifiedPath : String) :
    Except FmError String :=
  let normalizedPath := normalize specifiedPath
  if fsAccessB cwd fs normalizedPath then .ok normalizedPath
  else .error (.invalidInput (.io .enoent))

/-- checkIsArgsCountMatchLimit: fewer tokens than the limit is a missing
operand, more is too many arguments. -/
def checkIsArgsCountMatchLimit (argsCount limit : Nat) : Except FmError Unit :=
  if argsCount < limit then .error (.invalidInput .missingOperand)
  else if argsCount > limit then .error (.invalidInput .tooManyArguments)
  else .ok ()

/-- getValidatedPaths: split the raw argument string on single spaces,
check the token count against 2, then validate each token. -/
def getValidatedPaths (cwd : String) (fs : FileSystem) (specifiedPaths : String) :
    Except FmError (String × String) :=
  let paths := splitChar ' ' specifiedPaths
  match checkIsArgsCountMatchLimit paths.length 2 with
  | .error e => .error e
  | .ok _ =>
    match paths with
    | [p₁, p₂] =>
      match getValidatedPath cwd fs p₁ with
      | .error e => .error e
      | .ok v₁ =>
        match getValidatedPath cwd fs p₂ with
        | .error e => .error e
        | .ok v₂ => .ok (v₁, v₂)
    | _ => .error (.invalidInput .missingOperand)

/-- launchOperation wraps any error thrown by the operation callback as
`Operation failed`; the single-path commands `cat`, `rm` and `hash` first
run the argument through getValidatedPath and only invoke the callback on
a validated path. -/
def singlePathCommand (op : String → IOState → Except IoError Unit × IOState)
    (cwd : String) (st : IOState) (filePath : String) :
    Except FmError Unit × IOState :=
  match getValidatedPath cwd st.fs filePath with
  | .error e => (.error e, st)
  | .ok validatedPath =>
    let r := op validatedPath st
    (r.1.mapError .operationFailed, r.2)

/-- The `cat` command body (printFileContent). -/
def catCommand (cwd : String) (st : IOState) (filePath : String) :
    Except FmError Unit × IOState :=
  singlePathCommand
    (fun p s => ((readFileContent cwd s p).1.map (fun _ => ()), (readFileContent cwd s p).2))
    cwd st filePath

/-- The `rm` command body (deleteTargetFile). -/
def rmCommand (cwd : String) (st : IOState) (filePath : String) :
    Except FmError Unit × IOState :=
  singlePathCommand (fun p s => deleteFile cwd s p) cwd st filePath

/-- The `hash` command body (printCalculatedHash). -/
def hashCommand (hashFn : List Nat → String) (cwd : String) (st : IOState)
    (filePath : String) : Except FmError Unit × IOState :=
  singlePathCommand
    (fun p s => ((calculateHash hashFn cwd s p).1.map (fun _ => ()), (calculateHash hashFn cwd s p).2))
    cwd st filePath

/-- The `cp` command body (copyFileToNewDirectory). -/
def cpCommand (cwd : String) (st : IOState) (params : String) :
    Except FmError Unit × IOState :=
  match getValidatedPaths cwd st.fs params with
  | .error e => (.error e, st)
  | .ok (fileName, targetPath) =>
    let r := copyFileToDest cwd st fileName targetPath
    (r.1.mapError .operationFailed, r.2)

/-- The part of the `mv` command after path validation: copy to the
destination, then delete the original.  There is no rollback branch. -/
def mvPipeline (cwd : String) (st : IOState) (fileName targetPath : String) :
    Except FmError Unit × IOState :=
  let r₁ := copyFileToDest cwd st fileName targetPath
  match r₁.1 with
  | .error e => (.error (.operationFailed e), r₁.2)
  | .ok _ =>
    let r₂ := deleteFile cwd r₁.2 fileName
    (r₂.1.mapError .operationFailed, r₂.2)

/-- The `mv` command body (moveFileToNewDirectory). -/
def mvCommand (cwd : String) (st : IOState) (params : String) :
    Except FmError Unit × IOState :=
  match getValidatedPaths cwd st.fs params with
  | .error e => (.error e, st)
  | .ok (fileName, targetPath) => mvPipeline cwd st fileName targetPath

/-- The `rn` command body (renameFileName): splits the raw argument
string itself, checks the count, validates only the old path, and joins
the new one. -/
def renameCommand (cwd : String) (st : IOState) (params : String) :
    Except FmError Unit × IOState :=
  let filePaths := splitChar ' ' params
  match checkIsArgsCountMatchLimit filePaths.length 2 with
  | .error e => (.error e, st)
  | .ok _ =>
    match filePaths with
    | [oldPath, newPath] =>
      match getValidatedPath cwd st.fs oldPath with
      | .error e => (.error e, st)
      | .ok validatedPath =>
        let r := renameFile cwd st validatedPath (normalize newPath)
        (r.1.mapError .operationFailed, r.2)
    | _ => (.error (.invalidInput .missingOperand), st)

/-- The `compress` command body (compressFileToDirectory). -/
def compressCommand (comp : List Nat → List Nat) (cwd : String) (st : IOState)
    (params : String) : Except FmError Unit × IOState :=
  match getValidatedPaths cwd st.fs params with
  | .error e => (.error e, st)
  | .ok (filePath, targetPath) =>
    let r := compressFile comp cwd st filePath targetPath
    (r.1.mapError .operationFailed, r.2)

/-- The `decompress` command body (decompressFileToDirectory). -/
def decompressCommand (decomp : List Nat → Option (List Nat)) (cwd : String)
    (st : IOState) (params : String) : Except FmError Unit × IOState :=
  match getValidatedPaths cwd st.fs params with
  | .error e => (.error e, st)
  | .ok (filePath, targetPath) =>
    let r := decompressFile decomp cwd st filePath targetPath
    (r.1.mapError .operationFailed, r.2)

/-! ### Definitions taken from the specification wording, for comparison -/

/-- Modelled from the spec wording for the path validator: the argument is
joined against the current working directory with standard path-joining
rules, `.`/`..` collapsed, and resolved to an absolute form. -/
def specJoinedPath (cwd p : String) : String :=
  renderAbs (resolveSegs cwd p)

/-- Modelled from the claim wording for the decompress output name: the
`.br` suffix is stripped exactly when the basename ends with `.br`. -/
def claimedDecompressName (p : String) : String :=
  let b := basename (normalize p)
  if strEndsWith b ".br" then dropSuffix b ".br" else b

/-- An ordinary path component: non-empty, not a dot component, and free of
separators. -/
def WfSeg (s : String) : Prop :=
  s ≠ "" ∧ s ≠ "." ∧ '/' ∉ s.data

instance (s : String) : Decidable (WfSeg s) := by
  unfold WfSeg
  infer_instance

end FM

namespace FM

/-! ### Lemmas about character splitting -/

theorem mk_data (s : String) : String.mk s.data = s := rfl

theorem data_eq_nil_iff (s : String) : s.data = [] ↔ s = "" := by
  constructor
  · intro h
    have h2 := congrArg String.mk h
    rwa [mk_data] at h2
  · intro h
    subst h
    rfl

theorem splitCharAux_ne_nil (sep : Char) (l : List Char) :
    splitCharAux sep l ≠ [] := by
  induction l with
  | nil => simp [splitCharAux]
  | cons c cs ih =>
    unfold splitCharAux
    split
    · simp
    · split
      · simp
      · simp

theorem splitCharAux_append_sep (sep : Char) (l r : List Char) :
    splitCharAux sep (l ++ sep :: r) =
      splitCharAux sep l ++ splitCharAux sep r := by
  induction l with
  | nil => simp [splitCharAux]
  | cons c cs ih =>
    by_cases hc : c = sep
    · subst hc
      simp [splitCharAux, ih]
    · rcases h : splitCharAux sep cs with _ | ⟨hd, tl⟩
      · exact absurd h (splitCharAux_ne_nil sep cs)
      · simp [splitCharAux, hc, ih, h]

theorem splitCharAux_no_sep (sep : Char) (l : List Char) (h : sep ∉ l) :
    splitCharAux sep l = [l] := by
  induction l with
  | nil => rfl
  | cons c cs ih =>
    have hc : ¬ c = sep := by
      rintro rfl
      exact h (List.mem_cons_self _ _)
    have ih2 := ih (fun hm => h (List.mem_cons_of_mem c hm))
    simp [splitCharAux, hc, ih2]

theorem no_sep_of_mem_splitCharAux (sep : Char) (l part : List Char)
    (h : part ∈ splitCharAux sep l) : sep ∉ part := by
  induction l generalizing part with
  | nil =>
    simp [splitCharAux] at h
    subst h
    simp
  | cons c cs ih =>
    by_cases hc : c = sep
    · subst hc
      simp [splitCharAux] at h
      rcases h with h | h
      · subst h
        simp
      · exact ih part h
    · rcases hsp : splitCharAux sep cs with _ | ⟨hd, tl⟩
      · exact absurd hsp (splitCharAux_ne_nil sep cs)
      · simp [splitCharAux, hc, hsp] at h
        rcases h with h | h
        · subst h
          intro hm
          rcases List.mem_cons.mp hm with h1 | h1
          · exact hc h1.symm
          · exact ih hd (by rw [hsp]; exact List.mem_cons_self _ _) h1
        · exact ih part (by rw [hsp]; exact List.mem_cons_of_mem _ h)

theorem splitCharAux_joinSegsData (st : List String)
    (hst : st ≠ []) (h : ∀ s ∈ st, '/' ∉ s.data) :
    splitCharAux '/' (joinSegsData st) = st.map String.data := by
  induction st with
  | nil => exact absurd rfl hst
  | cons s rest ih =>
    cases rest with
    | nil =>
      simp [joinSegsData, splitCharAux_no_sep '/' s.data (h s (List.mem_cons_self _ _))]
    | cons s2 r2 =>
      have hs : '/' ∉ s.data := h s (List.mem_cons_self _ _)
      have hrest : ∀ t ∈ s2 :: r2, '/' ∉ t.data :=
        fun t ht => h t (List.mem_cons_of_mem _ ht)
      have hjoin : joinSegsData (s :: s2 :: r2) = s.data ++ '/' :: joinSegsData (s2 :: r2) := rfl
      rw [hjoin, splitCharAux_append_sep, splitCharAux_no_sep '/' s.data hs,
        ih (by simp) hrest]
      simp

end FM

namespace FM

/-! ### Lemmas about component resolution -/

theorem procAbs_append (l₁ l₂ : List String) :
    procAbs (l₁ ++ l₂) = List.foldl stepAbs (procAbs l₁) l₂ := by
  simp [procAbs, List.foldl_append]

theorem procRel_append (l₁ l₂ : List String) :
    procRel (l₁ ++ l₂) = List.foldl stepRel (procRel l₁) l₂ := by
  simp [procRel, List.foldl_append]

theorem procAbs_concat (l : List String) (s : String) :
    procAbs (l ++ [s]) = stepAbs (procAbs l) s := by
  simp [procAbs_append, List.foldl]

theorem procRel_concat (l : List String) (s : String) :
    procRel (l ++ [s]) = stepRel (procRel l) s := by
  simp [procRel_append, List.foldl]

theorem foldl_stepAbs_no_dotdot (l : List String) (st : List String)
    (h : ∀ s ∈ l, s ≠ "..") : List.foldl stepAbs st l = st ++ l := by
  induction l generalizing st with
  | nil => simp
  | cons s rest ih =>
    have hs : s ≠ ".." := h s (List.mem_cons_self _ _)
    have hrest : ∀ t ∈ rest, t ≠ ".." := fun t ht => h t (List.mem_cons_of_mem _ ht)
    simp [List.foldl, stepAbs, hs, ih _ hrest]

theorem mem_foldl_stepAbs (P : String → Prop) (l st : List String)
    (hst : ∀ s ∈ st, P s) (hl : ∀ s ∈ l, P s) :
    ∀ s ∈ List.foldl stepAbs st l, P s := by
  induction l generalizing st with
  | nil => simpa using hst
  | cons a rest ih =>
    have ha : P a := hl a (List.mem_cons_self _ _)
    have hrest : ∀ s ∈ rest, P s := fun s hs => hl s (List.mem_cons_of_mem _ hs)
    refine ih (stepAbs st a) ?_ hrest
    intro s hs
    unfold stepAbs at hs
    split at hs
    · exact hst s (List.dropLast_subset _ hs)
    · rcases List.mem_append.mp hs with h1 | h1
      · exact hst s h1
      · rcases List.mem_singleton.mp h1 with rfl
        exact ha

theorem stepAbs_dotdot (st : List String) : stepAbs st ".." = st.dropLast := by
  unfold stepAbs
  rw [if_pos rfl]

theorem stepAbs_ne (st : List String) (a : String) (ha : a ≠ "..") :
    stepAbs st a = st ++ [a] := by
  unfold stepAbs
  rw [if_neg ha]

theorem stepRel_dotdot_pos (st : List String)
    (hc : st = [] ∨ st.getLast? = some "..") : stepRel st ".." = st ++ [".."] := by
  unfold stepRel
  rw [if_pos rfl, if_pos hc]

theorem stepRel_dotdot_neg (st : List String)
    (hc : ¬(st = [] ∨ st.getLast? = some "..")) : stepRel st ".." = st.dropLast := by
  unfold stepRel
  rw [if_pos rfl, if_neg hc]

theorem stepRel_ne (st : List String) (a : String) (ha : a ≠ "..") :
    stepRel st a = st ++ [a] := by
  unfold stepRel
  rw [if_neg ha]

theorem mem_foldl_stepRel (P : String → Prop) (hdd : P "..") (l st : List String)
    (hst : ∀ s ∈ st, P s) (hl : ∀ s ∈ l, P s) :
    ∀ s ∈ List.foldl stepRel st l, P s := by
  induction l generalizing st with
  | nil => simpa using hst
  | cons a rest ih =>
    have ha : P a := hl a (List.mem_cons_self _ _)
    have hrest : ∀ s ∈ rest, P s := fun s hs => hl s (List.mem_cons_of_mem _ hs)
    refine ih (stepRel st a) ?_ hrest
    intro s hs
    by_cases ha2 : a = ".."
    · subst ha2
      by_cases hc : st = [] ∨ st.getLast? = some ".."
      · rw [stepRel_dotdot_pos st hc] at hs
        rcases List.mem_append.mp hs with h1 | h1
        · exact hst s h1
        · rcases List.mem_singleton.mp h1 with rfl
          exact hdd
      · rw [stepRel_dotdot_neg st hc] at hs
        exact hst s (List.dropLast_subset _ hs)
    · rw [stepRel_ne st a ha2] at hs
      rcases List.mem_append.mp hs with h1 | h1
      · exact hst s h1
      · rcases List.mem_singleton.mp h1 with rfl
        exact ha

theorem no_dotdot_mem_procAbs (l : List String) :
    ∀ s ∈ procAbs l, s ≠ ".." := by
  have base : ∀ s ∈ ([] : List String), s ≠ ".." := by simp
  intro s hs
  induction l using List.reverseRecOn with
  | nil => simp [procAbs] at hs
  | append_singleton rest a ih =>
    rw [procAbs_concat] at hs
    unfold stepAbs at hs
    split at hs
    · exact ih (List.dropLast_subset _ hs)
    · rcases List.mem_append.mp hs with h1 | h1
      · exact ih h1
      · rcases List.mem_singleton.mp h1 with rfl
        rename_i hne
        exact hne

theorem procAbs_fixpoint (l : List String) : procAbs (procAbs l) = procAbs l := by
  have h := no_dotdot_mem_procAbs l
  calc procAbs (procAbs l) = List.foldl stepAbs [] (procAbs l) := rfl
    _ = [] ++ procAbs l := foldl_stepAbs_no_dotdot _ _ h
    _ = procAbs l := by simp

theorem procRel_fixpoint (l : List String) : procRel (procRel l) = procRel l := by
  induction l using List.reverseRecOn with
  | nil => simp [procRel]
  | append_singleton rest a ih =>
    rw [procRel_concat]
    by_cases ha : a = ".."
    · subst ha
      by_cases hc : procRel rest = [] ∨ (procRel rest).getLast? = some ".."
      · rw [stepRel_dotdot_pos _ hc, procRel_concat, ih, stepRel_dotdot_pos _ hc]
      · rw [stepRel_dotdot_neg _ hc]
        push_neg at hc
        obtain ⟨hne, hlast⟩ := hc
        have hlastne : (procRel rest).getLast hne ≠ ".." := by
          intro he
          exact hlast (by rw [List.getLast?_eq_getLast _ hne, he])
        have hR : (procRel rest).dropLast ++ [(procRel rest).getLast hne] = procRel rest :=
          List.dropLast_append_getLast hne
        have e1 : procRel ((procRel rest).dropLast ++ [(procRel rest).getLast hne])
            = procRel ((procRel rest).dropLast) ++ [(procRel rest).getLast hne] := by
          rw [procRel_concat, stepRel_ne _ _ hlastne]
        have e2 : procRel ((procRel rest).dropLast ++ [(procRel rest).getLast hne])
            = (procRel rest).dropLast ++ [(procRel rest).getLast hne] := by
          rw [hR]
          exact ih
        have e3 : procRel ((procRel rest).dropLast) ++ [(procRel rest).getLast hne]
            = (procRel rest).dropLast ++ [(procRel rest).getLast hne] := by
          rw [← e1, e2]
        exact List.append_cancel_right e3
    · rw [stepRel_ne _ _ ha, procRel_concat, ih, stepRel_ne _ _ ha]

theorem foldl_stepAbs_procRel (l : List String) (st : List String) :
    List.foldl stepAbs st (procRel l) = List.foldl stepAbs st l := by
  induction l using List.reverseRecOn generalizing st with
  | nil => simp [procRel]
  | append_singleton rest a ih =>
    rw [procRel_concat, List.foldl_append]
    by_cases ha : a = ".."
    · subst ha
      have hrhs : List.foldl stepAbs (List.foldl stepAbs st rest) [".."]
          = (List.foldl stepAbs st (procRel rest)).dropLast := by
        simp [List.foldl, stepAbs_dotdot, ih]
      rw [hrhs]
      by_cases hc : procRel rest = [] ∨ (procRel rest).getLast? = some ".."
      · rw [stepRel_dotdot_pos _ hc, List.foldl_append]
        simp [List.foldl, stepAbs_dotdot]
      · rw [stepRel_dotdot_neg _ hc]
        push_neg at hc
        obtain ⟨hne, hlast⟩ := hc
        have hlastne : (procRel rest).getLast hne ≠ ".." := by
          intro he
          exact hlast (by rw [List.getLast?_eq_getLast _ hne, he])
        have hR : (procRel rest).dropLast ++ [(procRel rest).getLast hne] = procRel rest :=
          List.dropLast_append_getLast hne
        conv_rhs => rw [← hR]
        rw [List.foldl_append]
        simp [List.foldl, stepAbs_ne _ _ hlastne]
    · rw [stepRel_ne _ _ ha, List.foldl_append, ih]

end FM

namespace FM

/-! ### Lemmas about path strings -/

theorem segs_eq_filter_rawSegs (p : String) :
    segs p = (rawSegs p).filter (fun s => s != ".") := by
  unfold segs rawSegs
  rw [List.filter_filter]
  congr 1
  funext s
  exact Bool.and_comm _ _

theorem segs_append_slash (a b : String) :
    segs (a ++ "/" ++ b) = segs a ++ segs b := by
  unfold segs splitChar
  have hdata : (a ++ "/" ++ b).data = a.data ++ '/' :: b.data := by
    rw [String.data_append, String.data_append]
    simp [show ("/" : String).data = ['/'] from rfl]
  rw [hdata, splitCharAux_append_sep, List.map_append, List.filter_append]

theorem mem_segs_wf (p : String) : ∀ s ∈ segs p, WfSeg s := by
  intro s hs
  unfold segs splitChar at hs
  have hs2 := List.mem_of_mem_filter hs
  have hpred := List.of_mem_filter hs
  obtain ⟨part, hpart, rfl⟩ := List.mem_map.mp hs2
  simp only [bne_iff_ne, ne_eq, Bool.and_eq_true, decide_eq_true_eq] at hpred
  exact ⟨by simpa using hpred.1, by simpa using hpred.2,
    no_sep_of_mem_splitCharAux '/' p.data part hpart⟩

theorem mem_procAbs_wf (l : List String) (h : ∀ s ∈ l, WfSeg s) :
    ∀ s ∈ procAbs l, WfSeg s :=
  mem_foldl_stepAbs WfSeg l [] (by simp) h

theorem mem_procRel_wf (l : List String) (h : ∀ s ∈ l, WfSeg s) :
    ∀ s ∈ procRel l, WfSeg s :=
  mem_foldl_stepRel WfSeg (by unfold WfSeg; refine ⟨by simp, by simp, by decide⟩)
    l [] (by simp) h

theorem map_mk_map_data (st : List String) :
    (st.map String.data).map String.mk = st := by
  rw [List.map_map]
  have : ∀ s ∈ st, (String.mk ∘ String.data) s = id s := by
    intro s _
    simp [Function.comp, mk_data]
  rw [List.map_congr_left this, List.map_id]

theorem filter_wf_self (st : List String) (h : ∀ s ∈ st, WfSeg s) :
    st.filter (fun s => s != "" && s != ".") = st := by
  rw [List.filter_eq_self]
  intro s hs
  obtain ⟨h1, h2, _⟩ := h s hs
  simp [h1, h2]

theorem filter_ne_nil_self (st : List String) (h : ∀ s ∈ st, WfSeg s) :
    st.filter (fun s => s != "") = st := by
  rw [List.filter_eq_self]
  intro s hs
  obtain ⟨h1, _, _⟩ := h s hs
  simp [h1]

theorem segs_renderAbs (st : List String) (h : ∀ s ∈ st, WfSeg s) :
    segs (renderAbs st) = st := by
  unfold segs splitChar renderAbs
  cases st with
  | nil => rfl
  | cons s rest =>
    have hnos : ∀ t ∈ s :: rest, '/' ∉ t.data := fun t ht => (h t ht).2.2
    have hsplit : splitCharAux '/' ('/' :: joinSegsData (s :: rest))
        = [] :: splitCharAux '/' (joinSegsData (s :: rest)) := by
      simp [splitCharAux]
    rw [show (String.mk ('/' :: joinSegsData (s :: rest))).data
        = '/' :: joinSegsData (s :: rest) from rfl, hsplit,
      splitCharAux_joinSegsData (s :: rest) (by simp) hnos]
    simp only [List.map_cons, map_mk_map_data]
    rw [List.filter_cons]
    simp only [show ((("" : String) != "") && (("" : String) != ".")) = false from rfl]
    simp only [Bool.false_eq_true, if_false]
    exact filter_wf_self _ h

theorem segs_renderRel (st : List String) (h : ∀ s ∈ st, WfSeg s) :
    segs (renderRel st) = st := by
  cases st with
  | nil => rfl
  | cons s rest =>
    have hnos : ∀ t ∈ s :: rest, '/' ∉ t.data := fun t ht => (h t ht).2.2
    unfold renderRel
    rw [if_neg (by simp)]
    unfold segs splitChar
    rw [show (String.mk (joinSegsData (s :: rest))).data
        = joinSegsData (s :: rest) from rfl,
      splitCharAux_joinSegsData (s :: rest) (by simp) hnos, map_mk_map_data]
    exact filter_wf_self _ h

theorem rawSegs_renderAbs (st : List String) (h : ∀ s ∈ st, WfSeg s) :
    rawSegs (renderAbs st) = st := by
  unfold rawSegs splitChar renderAbs
  cases st with
  | nil => rfl
  | cons s rest =>
    have hnos : ∀ t ∈ s :: rest, '/' ∉ t.data := fun t ht => (h t ht).2.2
    have hsplit : splitCharAux '/' ('/' :: joinSegsData (s :: rest))
        = [] :: splitCharAux '/' (joinSegsData (s :: rest)) := by
      simp [splitCharAux]
    rw [show (String.mk ('/' :: joinSegsData (s :: rest))).data
        = '/' :: joinSegsData (s :: rest) from rfl, hsplit,
      splitCharAux_joinSegsData (s :: rest) (by simp) hnos]
    simp only [List.map_cons, map_mk_map_data]
    rw [List.filter_cons]
    simp only [show ((("" : String) != "")) = false from rfl]
    simp only [Bool.false_eq_true, if_false]
    exact filter_ne_nil_self _ h

theorem rawSegs_renderRel (st : List String) (hne : st ≠ [])
    (h : ∀ s ∈ st, WfSeg s) : rawSegs (renderRel st) = st := by
  cases st with
  | nil => exact absurd rfl hne
  | cons s rest =>
    have hnos : ∀ t ∈ s :: rest, '/' ∉ t.data := fun t ht => (h t ht).2.2
    unfold renderRel
    rw [if_neg (by simp)]
    unfold rawSegs splitChar
    rw [show (String.mk (joinSegsData (s :: rest))).data
        = joinSegsData (s :: rest) from rfl,
      splitCharAux_joinSegsData (s :: rest) (by simp) hnos, map_mk_map_data]
    exact filter_ne_nil_self _ h

end FM

namespace FM

theorem joinSegsData_head (s : String) (rest : List String) (hne : s.data ≠ []) :
    (joinSegsData (s :: rest)).head? = s.data.head? := by
  cases rest with
  | nil => rfl
  | cons s2 r2 =>
    show (s.data ++ '/' :: joinSegsData (s2 :: r2)).head? = s.data.head?
    rcases hd : s.data with _ | ⟨c, cs⟩
    · exact absurd hd hne
    · rfl

theorem isAbs_renderAbs (st : List String) : isAbs (renderAbs st) = true := rfl

theorem isAbs_renderRel (st : List String) (h : ∀ s ∈ st, WfSeg s) :
    isAbs (renderRel st) = false := by
  cases st with
  | nil => rfl
  | cons s rest =>
    obtain ⟨hne, _, hnos⟩ := h s (List.mem_cons_self _ _)
    have hdne : s.data ≠ [] := fun he => hne ((data_eq_nil_iff s).mp he)
    unfold renderRel isAbs
    rw [if_neg (by simp)]
    rw [show (String.mk (joinSegsData (s :: rest))).data
        = joinSegsData (s :: rest) from rfl]
    rw [joinSegsData_head s rest hdne]
    rcases hd : s.data with _ | ⟨c, cs⟩
    · exact absurd hd hdne
    · have hc : c ≠ '/' := by
        intro he
        subst he
        exact hnos (by rw [hd]; exact List.mem_cons_self _ _)
      simpa using hc

theorem isAbs_of_no_slash (s : String) (hnos : '/' ∉ s.data) :
    isAbs s = false := by
  unfold isAbs
  rcases hd : s.data with _ | ⟨c, cs⟩
  · simp
  · have hc : c ≠ '/' := by
      intro he
      subst he
      exact hnos (by rw [hd]; exact List.mem_cons_self _ _)
    simpa using hc

theorem isAbs_append_slash (a b : String) (ha : a ≠ "") :
    isAbs (a ++ "/" ++ b) = isAbs a := by
  unfold isAbs
  have hdata : (a ++ "/" ++ b).data = a.data ++ '/' :: b.data := by
    rw [String.data_append, String.data_append]
    simp [show ("/" : String).data = ['/'] from rfl]
  rw [hdata]
  rcases hd : a.data with _ | ⟨c, cs⟩
  · exact absurd ((data_eq_nil_iff a).mp hd) ha
  · rfl

theorem segs_normalize (p : String) :
    segs (normalize p)
      = if isAbs p then procAbs (segs p) else procRel (segs p) := by
  unfold normalize
  by_cases h : isAbs p = true
  · rw [if_pos h, if_pos h, segs_renderAbs _ (mem_procAbs_wf _ (mem_segs_wf p))]
  · rw [if_neg h, if_neg h, segs_renderRel _ (mem_procRel_wf _ (mem_segs_wf p))]

theorem isAbs_normalize (p : String) : isAbs (normalize p) = isAbs p := by
  unfold normalize
  by_cases h : isAbs p = true
  · rw [if_pos h, isAbs_renderAbs, h]
  · rw [if_neg h, isAbs_renderRel _ (mem_procRel_wf _ (mem_segs_wf p))]
    simp at h
    rw [h]

theorem normalize_idem (p : String) : normalize (normalize p) = normalize p := by
  show (if isAbs (normalize p) = true then renderAbs (procAbs (segs (normalize p)))
    else renderRel (procRel (segs (normalize p)))) = normalize p
  rw [isAbs_normalize, segs_normalize]
  by_cases h : isAbs p = true
  · rw [if_pos h, if_pos h, procAbs_fixpoint]
    unfold normalize
    rw [if_pos h]
  · rw [if_neg h, if_neg h, procRel_fixpoint]
    unfold normalize
    rw [if_neg h]

theorem resolveSegs_normalize (cwd p : String) :
    resolveSegs cwd (normalize p) = resolveSegs cwd p := by
  unfold resolveSegs
  rw [isAbs_normalize, segs_normalize]
  by_cases h : isAbs p = true
  · rw [if_pos h, if_pos h, if_pos h, procAbs_fixpoint]
  · rw [if_neg h, if_neg h, if_neg h, procAbs_append, foldl_stepAbs_procRel,
      ← procAbs_append]

theorem segs_single (seg : String) (hw : WfSeg seg) : segs seg = [seg] := by
  obtain ⟨hne, hdot, hnos⟩ := hw
  unfold segs splitChar
  rw [splitCharAux_no_sep '/' seg.data hnos]
  simp only [List.map_cons, List.map_nil, mk_data]
  rw [List.filter_cons]
  simp [hne, hdot]

theorem rawSegs_single (seg : String) (hne : seg ≠ "") (hnos : '/' ∉ seg.data) :
    rawSegs seg = [seg] := by
  unfold rawSegs splitChar
  rw [splitCharAux_no_sep '/' seg.data hnos]
  simp only [List.map_cons, List.map_nil, mk_data]
  rw [List.filter_cons]
  simp [hne]

theorem normalize_single (seg : String) (hw : WfSeg seg) (hdd : seg ≠ "..") :
    normalize seg = seg := by
  have habs : isAbs seg = false := isAbs_of_no_slash seg hw.2.2
  unfold normalize
  rw [if_neg (by simp [habs]), segs_single seg hw]
  have hrel : procRel [seg] = [seg] := by
    show stepRel [] seg = [seg]
    rw [stepRel_ne _ _ hdd]
    rfl
  rw [hrel]
  unfold renderRel
  rw [if_neg (by simp)]
  exact mk_data seg

theorem segs_empty : segs "" = [] := rfl

theorem isAbs_empty : isAbs "" = false := rfl

theorem procAbs_concat_ne (l : List String) (s : String) (hs : s ≠ "..") :
    procAbs (l ++ [s]) = procAbs l ++ [s] := by
  rw [procAbs_concat, stepAbs_ne _ _ hs]

theorem resolveSegs_join2 (cwd d seg : String) (hw : WfSeg seg)
    (hdd : seg ≠ "..") :
    resolveSegs cwd (join2 d seg) = resolveSegs cwd d ++ [seg] := by
  obtain ⟨hne, hdot, hnos⟩ := hw
  by_cases hd : d = ""
  · subst hd
    unfold join2
    rw [if_pos rfl, if_neg hne, normalize_single seg ⟨hne, hdot, hnos⟩ hdd]
    unfold resolveSegs
    rw [if_neg (by simp [isAbs_of_no_slash seg hnos]), if_neg (by simp [isAbs_empty]),
      segs_single seg ⟨hne, hdot, hnos⟩, segs_empty, List.append_nil,
      procAbs_concat_ne _ _ hdd]
  · unfold join2
    rw [if_neg hd, if_neg hne]
    have hsegs : segs (d ++ "/" ++ seg) = segs d ++ [seg] := by
      rw [segs_append_slash, segs_single seg ⟨hne, hdot, hnos⟩]
    by_cases habs : isAbs d = true
    · have habs2 : isAbs (d ++ "/" ++ seg) = true := by
        rw [isAbs_append_slash _ _ hd, habs]
      have hW : ∀ s ∈ procAbs (segs d) ++ [seg], WfSeg s := by
        intro s hs
        rcases List.mem_append.mp hs with h1 | h1
        · exact mem_procAbs_wf _ (mem_segs_wf d) s h1
        · rcases List.mem_singleton.mp h1 with rfl
          exact ⟨hne, hdot, hnos⟩
      have hWnd : ∀ s ∈ procAbs (segs d) ++ [seg], s ≠ ".." := by
        intro s hs
        rcases List.mem_append.mp hs with h1 | h1
        · exact no_dotdot_mem_procAbs _ s h1
        · rcases List.mem_singleton.mp h1 with rfl
          exact hdd
      unfold normalize
      rw [if_pos habs2, hsegs, procAbs_concat_ne _ _ hdd]
      unfold resolveSegs
      rw [if_pos (isAbs_renderAbs _), if_pos habs,
        segs_renderAbs _ hW]
      calc procAbs (procAbs (segs d) ++ [seg])
          = [] ++ (procAbs (segs d) ++ [seg]) :=
            foldl_stepAbs_no_dotdot _ [] hWnd
        _ = procAbs (segs d) ++ [seg] := by simp
    · have habs2 : isAbs (d ++ "/" ++ seg) = false := by
        rw [isAbs_append_slash _ _ hd]
        simpa using habs
      have hV : ∀ s ∈ procRel (segs d) ++ [seg], WfSeg s := by
        intro s hs
        rcases List.mem_append.mp hs with h1 | h1
        · exact mem_procRel_wf _ (mem_segs_wf d) s h1
        · rcases List.mem_singleton.mp h1 with rfl
          exact ⟨hne, hdot, hnos⟩
      unfold normalize
      rw [if_neg (by simp [habs2]), hsegs, procRel_concat, stepRel_ne _ _ hdd]
      unfold resolveSegs
      rw [if_neg (by simp [isAbs_renderRel _ hV]), if_neg (by simpa using habs),
        segs_renderRel _ hV, ← List.append_assoc, procAbs_concat_ne _ _ hdd,
        procAbs_append, foldl_stepAbs_procRel, ← procAbs_append]

theorem basename_join2 (d seg : String) (hw : WfSeg seg) (hdd : seg ≠ "..") :
    basename (join2 d seg) = seg := by
  obtain ⟨hne, hdot, hnos⟩ := hw
  by_cases hd : d = ""
  · subst hd
    unfold join2
    rw [if_pos rfl, if_neg hne, normalize_single seg ⟨hne, hdot, hnos⟩ hdd]
    unfold basename
    rw [rawSegs_single seg hne hnos]
    rfl
  · unfold join2
    rw [if_neg hd, if_neg hne]
    have hsegs : segs (d ++ "/" ++ seg) = segs d ++ [seg] := by
      rw [segs_append_slash, segs_single seg ⟨hne, hdot, hnos⟩]
    by_cases habs : isAbs d = true
    · have habs2 : isAbs (d ++ "/" ++ seg) = true := by
        rw [isAbs_append_slash _ _ hd, habs]
      have hW : ∀ s ∈ procAbs (segs d) ++ [seg], WfSeg s := by
        intro s hs
        rcases List.mem_append.mp hs with h1 | h1
        · exact mem_procAbs_wf _ (mem_segs_wf d) s h1
        · rcases List.mem_singleton.mp h1 with rfl
          exact ⟨hne, hdot, hnos⟩
      unfold normalize
      rw [if_pos habs2, hsegs, procAbs_concat_ne _ _ hdd]
      unfold basename
      rw [rawSegs_renderAbs _ hW, List.getLast?_concat]
      rfl
    · have habs2 : isAbs (d ++ "/" ++ seg) = false := by
        rw [isAbs_append_slash _ _ hd]
        simpa using habs
      have hV : ∀ s ∈ procRel (segs d) ++ [seg], WfSeg s := by
        intro s hs
        rcases List.mem_append.mp hs with h1 | h1
        · exact mem_procRel_wf _ (mem_segs_wf d) s h1
        · rcases List.mem_singleton.mp h1 with rfl
          exact ⟨hne, hdot, hnos⟩
      unfold normalize
      rw [if_neg (by simp [habs2]), hsegs, procRel_concat, stepRel_ne _ _ hdd]
      unfold basename
      rw [rawSegs_renderRel _ (by simp) hV, List.getLast?_concat]
      rfl

theorem normalize_join2 (a b : String) : normalize (join2 a b) = join2 a b := by
  unfold join2
  by_cases ha : a = ""
  · rw [if_pos ha]
    by_cases hb : b = ""
    · rw [if_pos hb]
      rfl
    · rw [if_neg hb]
      exact normalize_idem b
  · rw [if_neg ha]
    by_cases hb : b = ""
    · rw [if_pos hb]
      exact normalize_idem a
    · rw [if_neg hb]
      exact normalize_idem (a ++ "/" ++ b)

end FM

namespace FM

/-! ### Lemmas about basenames and suffixes -/

theorem basename_getLast (p : String) (h : basename p ≠ "") :
    (rawSegs p).getLast? = some (basename p) := by
  unfold basename at *
  rcases hl : (rawSegs p).getLast? with _ | b
  · rw [hl] at h
    simp at h
  · rw [hl] at *
    rfl

theorem resolveSegs_last (cwd p : String) (h0 : basename p ≠ "")
    (h1 : basename p ≠ ".") (h2 : basename p ≠ "..") :
    ∃ l, resolveSegs cwd p = l ++ [basename p] := by
  have hgl := basename_getLast p h0
  have hne : rawSegs p ≠ [] := by
    intro he
    rw [he] at hgl
    simp at hgl
  have hlast : (rawSegs p).getLast hne = basename p := by
    have := List.getLast?_eq_getLast (rawSegs p) hne
    rw [hgl] at this
    exact (Option.some_inj.mp this).symm
  have hsplit : (rawSegs p).dropLast ++ [basename p] = rawSegs p := by
    rw [← hlast]
    exact List.dropLast_append_getLast hne
  have hsegs : segs p
      = ((rawSegs p).dropLast.filter (fun s => s != ".")) ++ [basename p] := by
    rw [segs_eq_filter_rawSegs, ← hsplit, List.filter_append]
    simp [h1]
  unfold resolveSegs
  by_cases habs : isAbs p = true
  · rw [if_pos habs, hsegs, procAbs_concat_ne _ _ h2]
    exact ⟨_, rfl⟩
  · rw [if_neg habs, hsegs, ← List.append_assoc, procAbs_concat_ne _ _ h2]
    exact ⟨_, rfl⟩

theorem strEndsWith_append (a b : String) : strEndsWith (a ++ b) b = true := by
  unfold strEndsWith
  rw [String.data_append, List.isSuffixOf_iff_suffix]
  exact List.suffix_append a.data b.data

theorem dropSuffix_append (a b : String) : dropSuffix (a ++ b) b = a := by
  unfold dropSuffix
  rw [String.data_append, List.length_append, Nat.add_sub_cancel,
    List.take_left, mk_data]

theorem append_ne_right (x s : String) (hx : x ≠ "") : x ++ s ≠ s := by
  intro he
  have hlen := congrArg (fun t => t.data.length) he
  simp only [String.data_append, List.length_append] at hlen
  have hxlen : x.data.length = 0 := by omega
  exact hx ((data_eq_nil_iff x).mp (List.length_eq_zero.mp hxlen))

theorem append_br_wf (x : String) (hnos : '/' ∉ x.data) :
    WfSeg (x ++ ".br") ∧ (x ++ ".br") ≠ ".." := by
  have hdata : (x ++ ".br").data = x.data ++ ['.', 'b', 'r'] := by
    rw [String.data_append]
  unfold WfSeg
  refine ⟨⟨?_, ?_, ?_⟩, ?_⟩
  · intro he
    have h2 := congrArg String.data he
    rw [hdata] at h2
    simp at h2
  · intro he
    have h2 := congrArg String.data he
    rw [hdata] at h2
    have h3 := congrArg List.length h2
    simp only [List.length_append, List.length_cons, List.length_nil] at h3
    omega
  · rw [hdata]
    intro hmem
    rcases List.mem_append.mp hmem with h | h
    · exact hnos h
    · simp at h
  · intro he
    have h2 := congrArg String.data he
    rw [hdata] at h2
    have h3 := congrArg List.length h2
    simp only [List.length_append, List.length_cons, List.length_nil] at h3
    omega

theorem basename_no_slash (p : String) : '/' ∉ (basename p).data := by
  unfold basename
  rcases hl : (rawSegs p).getLast? with _ | b
  · simp
  · have hb : b ∈ rawSegs p := List.mem_of_mem_getLast? hl
    unfold rawSegs splitChar at hb
    have hb2 := List.mem_of_mem_filter hb
    obtain ⟨part, hpart, rfl⟩ := List.mem_map.mp hb2
    simpa using no_sep_of_mem_splitCharAux '/' p.data part hpart

/-! ### Lemmas about the filesystem model -/

theorem lookup_filter_ne (l : List (PathKey × List Nat)) (k k₂ : PathKey)
    (h : k₂ ≠ k) : (l.filter (fun e => e.1 != k)).lookup k₂ = l.lookup k₂ := by
  induction l with
  | nil => rfl
  | cons e rest ih =>
    rcases e with ⟨ek, ev⟩
    rw [List.filter_cons]
    by_cases he : ek = k
    · subst he
      have hke : (k₂ == ek) = false := by simp [h]
      simp only [bne_self_eq_false, Bool.false_eq_true, if_false, ih,
        List.lookup_cons, hke]
    · have hpred : (ek != k) = true := by simp [he]
      rw [hpred]
      simp only [if_true, List.lookup_cons]
      cases hk : (k₂ == ek) <;> simp [hk, ih]

theorem lookup_filter_self (l : List (PathKey × List Nat)) (k : PathKey) :
    (l.filter (fun e => e.1 != k)).lookup k = none := by
  induction l with
  | nil => rfl
  | cons e rest ih =>
    rcases e with ⟨ek, ev⟩
    rw [List.filter_cons]
    by_cases he : ek = k
    · subst he
      simp only [bne_self_eq_false, Bool.false_eq_true, if_false, ih]
    · have hpred : (ek != k) = true := by simp [he]
      rw [hpred]
      have hke : (k == ek) = false := by
        simp only [beq_eq_false_iff_ne, ne_eq]
        exact fun h2 => he h2.symm
      simp only [if_true, List.lookup_cons, hke, ih]

theorem lookupFile_setFile_self (fs : FileSystem) (k : PathKey) (c : List Nat) :
    lookupFile (setFile fs k c) k = some c := by
  unfold lookupFile setFile
  simp [List.lookup_cons]

theorem lookupFile_setFile_ne (fs : FileSystem) (k : PathKey) (c : List Nat)
    (k₂ : PathKey) (h : k₂ ≠ k) :
    lookupFile (setFile fs k c) k₂ = lookupFile fs k₂ := by
  unfold lookupFile setFile
  have hke : (k₂ == k) = false := by simp [h]
  simp only [List.lookup_cons, hke]
  exact lookup_filter_ne _ _ _ h

theorem lookupFile_removeFile_self (fs : FileSystem) (k : PathKey) :
    lookupFile (removeFile fs k) k = none := by
  unfold lookupFile removeFile
  exact lookup_filter_self _ _

theorem lookupFile_removeFile_ne (fs : FileSystem) (k k₂ : PathKey)
    (h : k₂ ≠ k) : lookupFile (removeFile fs k) k₂ = lookupFile fs k₂ := by
  unfold lookupFile removeFile
  exact lookup_filter_ne _ _ _ h

theorem isDirB_setFile (fs : FileSystem) (k : PathKey) (c : List Nat)
    (k₂ : PathKey) : isDirB (setFile fs k c) k₂ = isDirB fs k₂ := rfl

theorem isDirB_removeFile (fs : FileSystem) (k k₂ : PathKey) :
    isDirB (removeFile fs k) k₂ = isDirB fs k₂ := rfl

end FM

namespace FM

/-! ### Lemmas about the listing comparator and sort -/

theorem char_eq_of_toNat_eq (a b : Char) (h : a.toNat = b.toNat) : a = b :=
  Char.eq_of_val_eq (UInt32.ext h)

theorem charListLe_total (a b : List Char) :
    charListLe a b = true ∨ charListLe b a = true := by
  induction a generalizing b with
  | nil => left; rfl
  | cons x xs ih =>
    cases b with
    | nil => right; rfl
    | cons y ys =>
      by_cases h1 : x.toNat < y.toNat
      · left
        simp [charListLe, h1]
      · by_cases h2 : y.toNat < x.toNat
        · right
          simp [charListLe, h2]
        · have hxy : x = y := char_eq_of_toNat_eq _ _ (by omega)
          subst hxy
          rcases ih ys with h | h
          · left
            simpa [charListLe, h1, h2] using h
          · right
            simpa [charListLe, h1, h2] using h

theorem charListLe_trans (a : List Char) :
    ∀ b c, charListLe a b = true → charListLe b c = true →
      charListLe a c = true := by
  induction a with
  | nil => intro b c _ _; rfl
  | cons x xs ih =>
    intro b c hab hbc
    cases b with
    | nil => simp [charListLe] at hab
    | cons y ys =>
      cases c with
      | nil => simp [charListLe] at hbc
      | cons z zs =>
        by_cases hxy1 : x.toNat < y.toNat
        · by_cases hyz1 : y.toNat < z.toNat
          · simp [charListLe, show x.toNat < z.toNat from by omega]
          · by_cases hyz2 : z.toNat < y.toNat
            · simp [charListLe, hyz1, hyz2] at hbc
            · have : y = z := char_eq_of_toNat_eq _ _ (by omega)
              subst this
              simp [charListLe, hxy1]
        · by_cases hxy2 : y.toNat < x.toNat
          · simp [charListLe, hxy1, hxy2] at hab
          · have : x = y := char_eq_of_toNat_eq _ _ (by omega)
            subst this
            simp only [charListLe, if_neg hxy1, if_neg hxy2] at hab
            by_cases hyz1 : x.toNat < z.toNat
            · simp [charListLe, hyz1]
            · by_cases hyz2 : z.toNat < x.toNat
              · simp [charListLe, hyz1, hyz2] at hbc
              · simp only [charListLe, if_neg hyz1, if_neg hyz2] at hbc ⊢
                exact ih ys zs hab hbc

theorem sortByTypeAndName_total (a b : DirEntry) :
    sortByTypeAndName a b = true ∨ sortByTypeAndName b a = true := by
  rcases a with ⟨an, at₁⟩
  rcases b with ⟨bn, bt₁⟩
  cases at₁ <;> cases bt₁ <;>
    simp [sortByTypeAndName, localeCompareLe] <;>
    exact charListLe_total _ _

theorem sortByTypeAndName_trans (a b c : DirEntry) :
    sortByTypeAndName a b = true → sortByTypeAndName b c = true →
      sortByTypeAndName a c = true := by
  rcases a with ⟨an, at₁⟩
  rcases b with ⟨bn, bt₁⟩
  rcases c with ⟨cn, ct₁⟩
  cases at₁ <;> cases bt₁ <;> cases ct₁ <;>
    simp [sortByTypeAndName, localeCompareLe] <;>
    exact charListLe_trans _ _ _

theorem mem_orderedInsert (le : DirEntry → DirEntry → Bool) (a : DirEntry)
    (l : List DirEntry) : ∀ x ∈ orderedInsert le a l, x = a ∨ x ∈ l := by
  induction l with
  | nil =>
    intro x hx
    simp [orderedInsert] at hx
    left
    exact hx
  | cons b rest ih =>
    intro x hx
    unfold orderedInsert at hx
    by_cases hab : le a b = true
    · rw [if_pos hab] at hx
      rcases List.mem_cons.mp hx with rfl | hx2
      · left; rfl
      · right; exact hx2
    · rw [if_neg hab] at hx
      rcases List.mem_cons.mp hx with rfl | hx2
      · right
        exact List.mem_cons_self _ _
      · rcases ih x hx2 with h | h
        · left; exact h
        · right; exact List.mem_cons_of_mem _ h

theorem pairwise_orderedInsert (le : DirEntry → DirEntry → Bool)
    (htrans : ∀ x y z, le x y = true → le y z = true → le x z = true)
    (htot : ∀ x y, le x y = true ∨ le y x = true)
    (a : DirEntry) (l : List DirEntry)
    (h : List.Pairwise (fun x y => le x y = true) l) :
    List.Pairwise (fun x y => le x y = true) (orderedInsert le a l) := by
  induction l with
  | nil => simp [orderedInsert]
  | cons b rest ih =>
    rcases List.pairwise_cons.mp h with ⟨hb, hrest⟩
    unfold orderedInsert
    by_cases hab : le a b = true
    · rw [if_pos hab]
      refine List.Pairwise.cons ?_ h
      intro x hx
      rcases List.mem_cons.mp hx with rfl | hx2
      · exact hab
      · exact htrans a b x hab (hb x hx2)
    · rw [if_neg hab]
      refine List.Pairwise.cons ?_ (ih hrest)
      intro x hx
      rcases mem_orderedInsert le a rest x hx with rfl | hx2
      · rcases htot x b with h1 | h1
        · exact absurd h1 hab
        · exact h1
      · exact hb x hx2

theorem pairwise_sortEntries (le : DirEntry → DirEntry → Bool)
    (htrans : ∀ x y z, le x y = true → le y z = true → le x z = true)
    (htot : ∀ x y, le x y = true ∨ le y x = true)
    (l : List DirEntry) :
    List.Pairwise (fun x y => le x y = true) (sortEntries le l) := by
  induction l with
  | nil => simp [sortEntries]
  | cons a rest ih =>
    unfold sortEntries
    exact pairwise_orderedInsert le htrans htot a _ ih

end FM

namespace FM

/-! ### Claim theorems -/

/-- C8: for every directory, the `ls` listing puts all entries of kind
directory before all entries of kind file, with names in ascending
lexicographic order inside each kind (localeCompare modelled as
code-point order); and on the spec's example `{b.txt, a.txt, zdir, adir}`
the order is `[adir, zdir, a.txt, b.txt]`. -/
theorem c8_ls_ordering :
    (∀ entries : List (String × EntryKind),
      List.Pairwise
        (fun a b =>
          (a.entryType = EntryType.directory ∧ b.entryType = EntryType.file) ∨
          (a.entryType = b.entryType ∧ localeCompareLe a.Name b.Name = true))
        (getDirectoryContent entries)) ∧
    getDirectoryContent
        [("b.txt", .file), ("a.txt", .file), ("zdir", .directory), ("adir", .directory)]
      = [⟨"adir", .directory⟩, ⟨"zdir", .directory⟩,
         ⟨"a.txt", .file⟩, ⟨"b.txt", .file⟩] := by
  constructor
  · intro entries
    have hp := pairwise_sortEntries sortByTypeAndName sortByTypeAndName_trans
      sortByTypeAndName_total
      ((entries.map classifyEntry).filterMap id)
    have hconv : ∀ a b : DirEntry, sortByTypeAndName a b = true →
        (a.entryType = EntryType.directory ∧ b.entryType = EntryType.file) ∨
        (a.entryType = b.entryType ∧ localeCompareLe a.Name b.Name = true) := by
      intro a b hab
      rcases a with ⟨an, ta⟩
      rcases b with ⟨bn, tb⟩
      cases ta <;> cases tb <;> simp_all [sortByTypeAndName, localeCompareLe]
    unfold getDirectoryContent
    exact hp.imp (fun hab => hconv _ _ hab)
  · decide

/-- C7 (counterexample): the claim that every accepted path argument comes
back joined against the current working directory and resolved to an
absolute form is false: with cwd `/home/user`, argument `a/../b.txt` is
accepted and the validator returns the relative string `b.txt`, not
`/home/user/b.txt`. -/
theorem c7_counterexample :
    ¬ (∀ (cwd : String) (fs : FileSystem) (p v : String),
        getValidatedPath cwd fs p = .ok v → v = specJoinedPath cwd p) := by
  intro h
  have h2 := h "/home/user"
    ⟨[(["home", "user", "b.txt"], [7])], [[], ["home"], ["home", "user"]]⟩
    "a/../b.txt" "b.txt" (by decide)
  exact absurd h2 (by decide)

/-- C7 (amended): the validator normalizes the argument with
`path.join(arg)` — collapsing `.`/`..` segments — and returns that
normalized string unchanged whenever the access check (which resolves
relative paths against the process working directory) succeeds; the
returned path is not joined against the working directory and not made
absolute. -/
theorem c7_validator_returns_normalized (cwd : String) (fs : FileSystem)
    (p : String) (h : fsAccessB cwd fs (normalize p) = true) :
    getValidatedPath cwd fs p = .ok (normalize p) := by
  unfold getValidatedPath
  rw [if_pos h]

/-- C7 witness: a concrete accepted argument. -/
theorem c7_witness :
    fsAccessB "/h" ⟨[(["h", "b.txt"], [1])], [[], ["h"]]⟩
        (normalize "a/../b.txt") = true ∧
    getValidatedPath "/h" ⟨[(["h", "b.txt"], [1])], [[], ["h"]]⟩
        "a/../b.txt" = .ok (normalize "a/../b.txt") :=
  ⟨by decide,
    c7_validator_returns_normalized "/h" ⟨[(["h", "b.txt"], [1])], [[], ["h"]]⟩
      "a/../b.txt" (by decide)⟩

/-- C2: for each single-path command (`cat`, `rm`, `hash`), a path
argument that fails the access check makes the command fail with an
`Invalid input` error carrying the I/O reason, with the state unchanged
(no filesystem mutation); and the result is the same for an arbitrary
operation callback, so the underlying operation is never invoked. -/
theorem c2_invalid_path_single_commands (cwd : String) (st : IOState)
    (p : String) (hashFn : List Nat → String)
    (h : fsAccessB cwd st.fs (normalize p) = false) :
    catCommand cwd st p = (.error (.invalidInput (.io .enoent)), st) ∧
    rmCommand cwd st p = (.error (.invalidInput (.io .enoent)), st) ∧
    hashCommand hashFn cwd st p = (.error (.invalidInput (.io .enoent)), st) ∧
    ∀ op : String → IOState → Except IoError Unit × IOState,
      singlePathCommand op cwd st p
        = (.error (.invalidInput (.io .enoent)), st) := by
  have hval : getValidatedPath cwd st.fs p
      = .error (.invalidInput (.io .enoent)) := by
    unfold getValidatedPath
    rw [if_neg (by simp [h])]
  have hgen : ∀ op : String → IOState → Except IoError Unit × IOState,
      singlePathCommand op cwd st p
        = (.error (.invalidInput (.io .enoent)), st) := by
    intro op
    unfold singlePathCommand
    rw [hval]
  exact ⟨hgen _, hgen _, hgen _, hgen⟩

/-- C2 witness: a missing path on a concrete filesystem. -/
theorem c2_witness :
    fsAccessB "/h" ⟨[], [[], ["h"]]⟩ (normalize "nope.txt") = false ∧
    rmCommand "/h" ⟨⟨[], [[], ["h"]]⟩, 0⟩ "nope.txt"
      = (.error (.invalidInput (.io .enoent)), ⟨⟨[], [[], ["h"]]⟩, 0⟩) :=
  ⟨by decide,
    (c2_invalid_path_single_commands "/h" ⟨⟨[], [[], ["h"]]⟩, 0⟩ "nope.txt"
      (fun _ => "") (by decide)).2.1⟩

/-- C3: `createFile` opens with the exclusive `'wx'` flag, so on any path
whose key already denotes an existing file or directory it fails with the
exists error and leaves the state (hence the existing file's content)
unchanged, for every requested content; and on a fresh path with the
default empty content the created file is empty. -/
theorem c3_createFile_exclusive (cwd : String) (st : IOState) (p : String)
    (c : List Nat) :
    (((lookupFile st.fs (resolveSegs cwd p)).isSome = true ∨
        isDirB st.fs (resolveSegs cwd p) = true) →
      createFile cwd st p c = (.error .eexist, st)) ∧
    ((lookupFile st.fs (resolveSegs cwd p)).isSome = false →
      isDirB st.fs (resolveSegs cwd p) = false →
      isDirB st.fs (resolveSegs cwd p).dropLast = true →
      createFile cwd st p []
          = (.ok (), { st with fs := setFile st.fs (resolveSegs cwd p) [] }) ∧
        lookupFile (setFile st.fs (resolveSegs cwd p) [])
          (resolveSegs cwd p) = some []) := by
  constructor
  · intro h
    unfold createFile
    rw [if_pos (by rcases h with h | h <;> simp [h])]
  · intro h1 h2 h3
    refine ⟨?_, lookupFile_setFile_self _ _ _⟩
    unfold createFile
    rw [if_neg (by simp [h1, h2]), if_pos h3]

/-- C3 witness: failure on an existing file and success on a fresh name. -/
theorem c3_witness :
    createFile "/h" ⟨⟨[(["h", "a.txt"], [5])], [[], ["h"]]⟩, 0⟩ "a.txt" [9]
        = (.error .eexist, ⟨⟨[(["h", "a.txt"], [5])], [[], ["h"]]⟩, 0⟩) ∧
    lookupFile
        (setFile (FileSystem.mk [(["h", "a.txt"], [5])] [[], ["h"]])
          (resolveSegs "/h" "b.txt") [])
        (resolveSegs "/h" "b.txt") = some [] :=
  ⟨(c3_createFile_exclusive "/h" ⟨⟨[(["h", "a.txt"], [5])], [[], ["h"]]⟩, 0⟩
      "a.txt" [9]).1 (Or.inl (by decide)),
    ((c3_createFile_exclusive "/h" ⟨⟨[(["h", "a.txt"], [5])], [[], ["h"]]⟩, 0⟩
      "b.txt" [9]).2 (by decide) (by decide) (by decide)).2⟩

end FM

namespace FM

/-- C4: each two-path command (`rn`, `cp`, `mv`, `compress`, `decompress`)
splits its raw argument string on single spaces and rejects — before any
validation or operation, leaving the state untouched — with the missing
operand error when fewer than two tokens result and with the
too-many-arguments error when more than two result. -/
theorem c4_two_path_arity (comp : List Nat → List Nat)
    (decomp : List Nat → Option (List Nat)) (cwd : String) (st : IOState)
    (s : String) :
    ((splitChar ' ' s).length < 2 →
      renameCommand cwd st s = (.error (.invalidInput .missingOperand), st) ∧
      cpCommand cwd st s = (.error (.invalidInput .missingOperand), st) ∧
      mvCommand cwd st s = (.error (.invalidInput .missingOperand), st) ∧
      compressCommand comp cwd st s
        = (.error (.invalidInput .missingOperand), st) ∧
      decompressCommand decomp cwd st s
        = (.error (.invalidInput .missingOperand), st)) ∧
    ((splitChar ' ' s).length > 2 →
      renameCommand cwd st s = (.error (.invalidInput .tooManyArguments), st) ∧
      cpCommand cwd st s = (.error (.invalidInput .tooManyArguments), st) ∧
      mvCommand cwd st s = (.error (.invalidInput .tooManyArguments), st) ∧
      compressCommand comp cwd st s
        = (.error (.invalidInput .tooManyArguments), st) ∧
      decompressCommand decomp cwd st s
        = (.error (.invalidInput .tooManyArguments), st)) := by
  constructor
  · intro hn
    have hcheck : checkIsArgsCountMatchLimit (splitChar ' ' s).length 2
        = .error (.invalidInput .missingOperand) := by
      unfold checkIsArgsCountMatchLimit
      rw [if_pos hn]
    have hpaths : getValidatedPaths cwd st.fs s
        = .error (.invalidInput .missingOperand) := by
      simp only [getValidatedPaths]
      rw [hcheck]
    refine ⟨?_, ?_, ?_, ?_, ?_⟩
    · simp only [renameCommand]
      rw [hcheck]
    · simp only [cpCommand]
      rw [hpaths]
    · simp only [mvCommand]
      rw [hpaths]
    · simp only [compressCommand]
      rw [hpaths]
    · simp only [decompressCommand]
      rw [hpaths]
  · intro hn
    have hcheck : checkIsArgsCountMatchLimit (splitChar ' ' s).length 2
        = .error (.invalidInput .tooManyArguments) := by
      unfold checkIsArgsCountMatchLimit
      rw [if_neg (by omega), if_pos hn]
    have hpaths : getValidatedPaths cwd st.fs s
        = .error (.invalidInput .tooManyArguments) := by
      simp only [getValidatedPaths]
      rw [hcheck]
    refine ⟨?_, ?_, ?_, ?_, ?_⟩
    · simp only [renameCommand]
      rw [hcheck]
    · simp only [cpCommand]
      rw [hpaths]
    · simp only [mvCommand]
      rw [hpaths]
    · simp only [compressCommand]
      rw [hpaths]
    · simp only [decompressCommand]
      rw [hpaths]

/-- C4 witness: `rn onlyonearg` is a missing operand and `rn a b c` is too
many arguments, on a concrete state. -/
theorem c4_witness :
    ((splitChar ' ' "onlyonearg").length < 2 ∧
      renameCommand "/h" ⟨⟨[], [[], ["h"]]⟩, 0⟩ "onlyonearg"
        = (.error (.invalidInput .missingOperand), ⟨⟨[], [[], ["h"]]⟩, 0⟩)) ∧
    ((splitChar ' ' "a b c").length > 2 ∧
      renameCommand "/h" ⟨⟨[], [[], ["h"]]⟩, 0⟩ "a b c"
        = (.error (.invalidInput .tooManyArguments), ⟨⟨[], [[], ["h"]]⟩, 0⟩)) :=
  ⟨⟨by decide,
      ((c4_two_path_arity (fun c => c) (fun c => some c) "/h"
          ⟨⟨[], [[], ["h"]]⟩, 0⟩ "onlyonearg").1 (by decide)).1⟩,
    ⟨by decide,
      ((c4_two_path_arity (fun c => c) (fun c => some c) "/h"
          ⟨⟨[], [[], ["h"]]⟩, 0⟩ "a b c").2 (by decide)).1⟩⟩

end FM

namespace FM

theorem openRead_ok (cwd : String) (st : IOState) (p : String) (c : List Nat)
    (h : lookupFile st.fs (resolveSegs cwd p) = some c) :
    openRead cwd st p = .ok ({ st with openHandles := st.openHandles + 1 }, c) := by
  unfold openRead
  rw [h]

theorem openRead_eisdir (cwd : String) (st : IOState) (p : String)
    (h : lookupFile st.fs (resolveSegs cwd p) = none)
    (hd : isDirB st.fs (resolveSegs cwd p) = true) :
    openRead cwd st p = .error .eisdir := by
  unfold openRead
  rw [h, if_pos hd]

theorem openRead_enoent (cwd : String) (st : IOState) (p : String)
    (h : lookupFile st.fs (resolveSegs cwd p) = none)
    (hd : isDirB st.fs (resolveSegs cwd p) = false) :
    openRead cwd st p = .error .enoent := by
  unfold openRead
  rw [h, if_neg (by simp [hd])]

theorem openWrite_eisdir (cwd : String) (st : IOState) (p : String)
    (h : isDirB st.fs (resolveSegs cwd p) = true) :
    openWrite cwd st p = .error .eisdir := by
  unfold openWrite
  rw [if_pos h]

theorem openWrite_enoent (cwd : String) (st : IOState) (p : String)
    (h1 : isDirB st.fs (resolveSegs cwd p) = false)
    (h2 : isDirB st.fs (resolveSegs cwd p).dropLast = false) :
    openWrite cwd st p = .error .enoent := by
  unfold openWrite
  rw [if_neg (by simp [h1]), if_neg (by simp [h2])]

theorem openWrite_ok (cwd : String) (st : IOState) (p : String)
    (h1 : isDirB st.fs (resolveSegs cwd p) = false)
    (h2 : isDirB st.fs (resolveSegs cwd p).dropLast = true) :
    openWrite cwd st p
      = .ok { fs := setFile st.fs (resolveSegs cwd p) [],
              openHandles := st.openHandles + 1 } := by
  unfold openWrite
  rw [if_neg (by simp [h1]), if_pos h2]

/-- C5: the `mv` pipeline is exactly `copyFileToDest` followed by
`deleteFile` with no rollback branch; a failed delete leaves the
filesystem exactly as the copy left it (both copies remain); and on the
spec's scenario — source `s.txt` with content `"X"` (byte 88) and an
existing empty directory `d` — `mv s.txt d` succeeds, `d/s.txt` contains
the byte 88 and `s.txt` no longer exists. -/
theorem c5_move_copy_delete (cwd : String) (st : IOState) (p₁ p₂ : String) :
    (mvPipeline cwd st p₁ p₂ =
      (match (copyFileToDest cwd st p₁ p₂).1 with
       | .error e => (.error (.operationFailed e), (copyFileToDest cwd st p₁ p₂).2)
       | .ok _ =>
         ((deleteFile cwd (copyFileToDest cwd st p₁ p₂).2 p₁).1.mapError
            .operationFailed,
          (deleteFile cwd (copyFileToDest cwd st p₁ p₂).2 p₁).2))) ∧
    (∀ e, (deleteFile cwd st p₁).1 = .error e → (deleteFile cwd st p₁).2 = st) ∧
    ((mvCommand "/h" ⟨⟨[(["h", "s.txt"], [88])], [[], ["h"], ["h", "d"]]⟩, 0⟩
        "s.txt d").1 = .ok () ∧
      lookupFile
        (mvCommand "/h" ⟨⟨[(["h", "s.txt"], [88])], [[], ["h"], ["h", "d"]]⟩, 0⟩
          "s.txt d").2.fs ["h", "d", "s.txt"] = some [88] ∧
      lookupFile
        (mvCommand "/h" ⟨⟨[(["h", "s.txt"], [88])], [[], ["h"], ["h", "d"]]⟩, 0⟩
          "s.txt d").2.fs ["h", "s.txt"] = none) := by
  refine ⟨rfl, ?_, by decide, by decide, by decide⟩
  intro e he
  unfold deleteFile at he ⊢
  by_cases h1 : (lookupFile st.fs (resolveSegs cwd p₁)).isSome = true
  · rw [if_pos h1] at he
    simp at he
  · rw [if_neg h1] at he ⊢
    by_cases h2 : isDirB st.fs (resolveSegs cwd p₁) = true
    · rw [if_pos h2]
    · rw [if_neg h2]

/-- C5 witness: a delete failure on a concrete state leaves it unchanged. -/
theorem c5_witness :
    (deleteFile "/h" ⟨⟨[(["h", "d", "s.txt"], [88])], [[], ["h"], ["h", "d"]]⟩, 0⟩
        "gone.txt").1 = .error .enoent ∧
    (deleteFile "/h" ⟨⟨[(["h", "d", "s.txt"], [88])], [[], ["h"], ["h", "d"]]⟩, 0⟩
        "gone.txt").2
      = ⟨⟨[(["h", "d", "s.txt"], [88])], [[], ["h"], ["h", "d"]]⟩, 0⟩ :=
  ⟨by decide,
    (c5_move_copy_delete "/h"
        ⟨⟨[(["h", "d", "s.txt"], [88])], [[], ["h"], ["h", "d"]]⟩, 0⟩
        "gone.txt" "d").2.1 .enoent (by decide)⟩

end FM

namespace FM


theorem copyFileToDest_handles (cwd : String) (st : IOState) (a b : String) :
    ((copyFileToDest cwd st a b).2).openHandles
      = (if canOpenReadB cwd st.fs a && !canOpenWriteB cwd st.fs (join2 b a)
         then st.openHandles + 1 else st.openHandles) := by
  rcases hl : lookupFile st.fs (resolveSegs cwd a) with _ | c
  · have hread : canOpenReadB cwd st.fs a = false := by
      unfold canOpenReadB
      rw [hl]
      rfl
    by_cases hd : isDirB st.fs (resolveSegs cwd a) = true
    · simp [copyFileToDest, openRead_eisdir cwd st a hl hd, hread]
    · simp [copyFileToDest, openRead_enoent cwd st a hl (by simpa using hd), hread]
  · have hread : canOpenReadB cwd st.fs a = true := by
      unfold canOpenReadB
      rw [hl]
      rfl
    by_cases hd : isDirB st.fs (resolveSegs cwd (join2 b a)) = true
    · have hwrite : canOpenWriteB cwd st.fs (join2 b a) = false := by
        unfold canOpenWriteB
        rw [hd]
        rfl
      have hw := openWrite_eisdir cwd ⟨st.fs, st.openHandles + 1⟩ (join2 b a) hd
      simp [copyFileToDest, openRead_ok cwd st a c hl, hw, hread, hwrite]
    · by_cases hp : isDirB st.fs (resolveSegs cwd (join2 b a)).dropLast = true
      · have hwrite : canOpenWriteB cwd st.fs (join2 b a) = true := by
          unfold canOpenWriteB
          rw [hp, (by simpa using hd : isDirB st.fs (resolveSegs cwd (join2 b a)) = false)]
          rfl
        have hw := openWrite_ok cwd ⟨st.fs, st.openHandles + 1⟩ (join2 b a)
          (by simpa using hd) hp
        simp [copyFileToDest, openRead_ok cwd st a c hl, hw, hread, hwrite]
      · have hwrite : canOpenWriteB cwd st.fs (join2 b a) = false := by
          unfold canOpenWriteB
          rw [(by simpa using hp :
            isDirB st.fs (resolveSegs cwd (join2 b a)).dropLast = false)]
          simp
        have hw := openWrite_enoent cwd ⟨st.fs, st.openHandles + 1⟩ (join2 b a)
          (by simpa using hd) (by simpa using hp)
        simp [copyFileToDest, openRead_ok cwd st a c hl, hw, hread, hwrite]

theorem compressFile_handles (comp : List Nat → List Nat) (cwd : String)
    (st : IOState) (a b : String) :
    ((compressFile comp cwd st a b).2).openHandles
      = (if canOpenReadB cwd st.fs a &&
            !canOpenWriteB cwd st.fs (join2 b (basename a ++ ".br"))
         then st.openHandles + 1 else st.openHandles) := by
  rcases hl : lookupFile st.fs (resolveSegs cwd a) with _ | c
  · have hread : canOpenReadB cwd st.fs a = false := by
      unfold canOpenReadB
      rw [hl]
      rfl
    by_cases hd : isDirB st.fs (resolveSegs cwd a) = true
    · simp [compressFile, openRead_eisdir cwd st a hl hd, hread]
    · simp [compressFile, openRead_enoent cwd st a hl (by simpa using hd), hread]
  · have hread : canOpenReadB cwd st.fs a = true := by
      unfold canOpenReadB
      rw [hl]
      rfl
    by_cases hd : isDirB st.fs (resolveSegs cwd (join2 b (basename a ++ ".br"))) = true
    · have hwrite : canOpenWriteB cwd st.fs (join2 b (basename a ++ ".br")) = false := by
        unfold canOpenWriteB
        rw [hd]
        rfl
      have hw := openWrite_eisdir cwd ⟨st.fs, st.openHandles + 1⟩
        (join2 b (basename a ++ ".br")) hd
      simp [compressFile, openRead_ok cwd st a c hl, hw, hread, hwrite]
    · by_cases hp : isDirB st.fs
          (resolveSegs cwd (join2 b (basename a ++ ".br"))).dropLast = true
      · have hwrite : canOpenWriteB cwd st.fs (join2 b (basename a ++ ".br")) = true := by
          unfold canOpenWriteB
          rw [hp, (by simpa using hd :
            isDirB st.fs (resolveSegs cwd (join2 b (basename a ++ ".br"))) = false)]
          rfl
        have hw := openWrite_ok cwd ⟨st.fs, st.openHandles + 1⟩
          (join2 b (basename a ++ ".br")) (by simpa using hd) hp
        simp [compressFile, openRead_ok cwd st a c hl, hw, hread, hwrite]
      · have hwrite : canOpenWriteB cwd st.fs (join2 b (basename a ++ ".br")) = false := by
          unfold canOpenWriteB
          rw [(by simpa using hp : isDirB st.fs
            (resolveSegs cwd (join2 b (basename a ++ ".br"))).dropLast = false)]
          simp
        have hw := openWrite_enoent cwd ⟨st.fs, st.openHandles + 1⟩
          (join2 b (basename a ++ ".br")) (by simpa using hd) (by simpa using hp)
        simp [compressFile, openRead_ok cwd st a c hl, hw, hread, hwrite]

theorem decompressFile_handles (decomp : List Nat → Option (List Nat))
    (cwd : String) (st : IOState) (a b : String) :
    ((decompressFile decomp cwd st a b).2).openHandles
      = (if canOpenReadB cwd st.fs (normalize a) &&
            !canOpenWriteB cwd st.fs (join2 b (basenameExt (normalize a) ".br"))
         then st.openHandles + 1 else st.openHandles) := by
  rcases hl : lookupFile st.fs (resolveSegs cwd (normalize a)) with _ | c
  · have hread : canOpenReadB cwd st.fs (normalize a) = false := by
      unfold canOpenReadB
      rw [hl]
      rfl
    by_cases hd : isDirB st.fs (resolveSegs cwd (normalize a)) = true
    · simp [decompressFile, openRead_eisdir cwd st (normalize a) hl hd, hread]
    · simp [decompressFile, openRead_enoent cwd st (normalize a) hl (by simpa using hd),
        hread]
  · have hread : canOpenReadB cwd st.fs (normalize a) = true := by
      unfold canOpenReadB
      rw [hl]
      rfl
    by_cases hd : isDirB st.fs
        (resolveSegs cwd (join2 b (basenameExt (normalize a) ".br"))) = true
    · have hwrite : canOpenWriteB cwd st.fs
          (join2 b (basenameExt (normalize a) ".br")) = false := by
        unfold canOpenWriteB
        rw [hd]
        rfl
      have hw := openWrite_eisdir cwd ⟨st.fs, st.openHandles + 1⟩
        (join2 b (basenameExt (normalize a) ".br")) hd
      simp [decompressFile, openRead_ok cwd st (normalize a) c hl, hw, hread, hwrite]
    · by_cases hp : isDirB st.fs
          (resolveSegs cwd (join2 b (basenameExt (normalize a) ".br"))).dropLast = true
      · have hwrite : canOpenWriteB cwd st.fs
            (join2 b (basenameExt (normalize a) ".br")) = true := by
          unfold canOpenWriteB
          rw [hp, (by simpa using hd : isDirB st.fs
            (resolveSegs cwd (join2 b (basenameExt (normalize a) ".br"))) = false)]
          rfl
        have hw := openWrite_ok cwd ⟨st.fs, st.openHandles + 1⟩
          (join2 b (basenameExt (normalize a) ".br")) (by simpa using hd) hp
        rcases hdec : decomp c with _ | dc <;>
          simp [decompressFile, openRead_ok cwd st (normalize a) c hl, hw,
            hread, hwrite, hdec]
      · have hwrite : canOpenWriteB cwd st.fs
            (join2 b (basenameExt (normalize a) ".br")) = false := by
          unfold canOpenWriteB
          rw [(by simpa using hp : isDirB st.fs
            (resolveSegs cwd (join2 b (basenameExt (normalize a) ".br"))).dropLast = false)]
          simp
        have hw := openWrite_enoent cwd ⟨st.fs, st.openHandles + 1⟩
          (join2 b (basenameExt (normalize a) ".br")) (by simpa using hd)
          (by simpa using hp)
        simp [decompressFile, openRead_ok cwd st (normalize a) c hl, hw, hread, hwrite]

end FM

namespace FM

/-- C6 (counterexample): the claim that every streaming operation releases
every handle it opened on every exit path is false: when the destination
directory is missing, `copyFileToDest` opens the source, the destination
open rejects before the close callbacks are installed, and the source
handle is left open. -/
theorem c6_counterexample :
    ¬ (∀ (cwd : String) (st : IOState) (fileName targetDest : String),
        ((copyFileToDest cwd st fileName targetDest).2).openHandles
          = st.openHandles) := by
  intro h
  have h2 := h "/h" ⟨⟨[(["h", "s.txt"], [1])], [[], ["h"]]⟩, 0⟩ "s.txt" "d"
  exact absurd h2 (by decide)

/-- C6 (amended): for each streaming operation, every opened handle is
released on every exit path — success, transfer or codec error, or a
failed source open — except in one case: when the source open succeeds
and the destination open then fails (for copy, compress and decompress),
exactly one handle, the source handle, stays open.  The single-handle
operations read and hash always restore the handle count. -/
theorem c6_handle_release (comp : List Nat → List Nat)
    (decomp : List Nat → Option (List Nat)) (hashFn : List Nat → String)
    (cwd : String) (st : IOState) (a b p : String) :
    ((copyFileToDest cwd st a b).2).openHandles
        = (if canOpenReadB cwd st.fs a && !canOpenWriteB cwd st.fs (join2 b a)
           then st.openHandles + 1 else st.openHandles) ∧
    ((compressFile comp cwd st a b).2).openHandles
        = (if canOpenReadB cwd st.fs a &&
              !canOpenWriteB cwd st.fs (join2 b (basename a ++ ".br"))
           then st.openHandles + 1 else st.openHandles) ∧
    ((decompressFile decomp cwd st a b).2).openHandles
        = (if canOpenReadB cwd st.fs (normalize a) &&
              !canOpenWriteB cwd st.fs (join2 b (basenameExt (normalize a) ".br"))
           then st.openHandles + 1 else st.openHandles) ∧
    ((readFileContent cwd st p).2).openHandles = st.openHandles ∧
    ((calculateHash hashFn cwd st p).2).openHandles = st.openHandles := by
  refine ⟨copyFileToDest_handles cwd st a b, compressFile_handles comp cwd st a b,
    decompressFile_handles decomp cwd st a b, ?_, ?_⟩
  · rcases hl : lookupFile st.fs (resolveSegs cwd p) with _ | c
    · by_cases hd : isDirB st.fs (resolveSegs cwd p) = true
      · simp [readFileContent, openRead_eisdir cwd st p hl hd]
      · simp [readFileContent, openRead_enoent cwd st p hl (by simpa using hd)]
    · simp [readFileContent, openRead_ok cwd st p c hl]
  · rcases hl : lookupFile st.fs (resolveSegs cwd (normalize p)) with _ | c
    · by_cases hd : isDirB st.fs (resolveSegs cwd (normalize p)) = true
      · simp [calculateHash, openRead_eisdir cwd st (normalize p) hl hd]
      · simp [calculateHash, openRead_enoent cwd st (normalize p) hl (by simpa using hd)]
    · simp [calculateHash, openRead_ok cwd st (normalize p) c hl]

end FM

namespace FM

theorem copyFileToDest_ok (cwd : String) (st : IOState) (a b : String)
    (c : List Nat)
    (hsrc : lookupFile st.fs (resolveSegs cwd a) = some c)
    (hnd : isDirB st.fs (resolveSegs cwd (join2 b a)) = false)
    (hpar : isDirB st.fs (resolveSegs cwd (join2 b a)).dropLast = true) :
    copyFileToDest cwd st a b
      = (.ok (), ⟨setFile (setFile st.fs (resolveSegs cwd (join2 b a)) [])
          (resolveSegs cwd (join2 b a)) c, st.openHandles⟩) := by
  have hro := openRead_ok cwd st a c hsrc
  have hw := openWrite_ok cwd ⟨st.fs, st.openHandles + 1⟩ (join2 b a) hnd hpar
  simp [copyFileToDest, hro, hw]

theorem compressFile_ok (comp : List Nat → List Nat) (cwd : String)
    (st : IOState) (a b : String) (c : List Nat)
    (hsrc : lookupFile st.fs (resolveSegs cwd a) = some c)
    (hnd : isDirB st.fs (resolveSegs cwd (join2 b (basename a ++ ".br"))) = false)
    (hpar : isDirB st.fs
      (resolveSegs cwd (join2 b (basename a ++ ".br"))).dropLast = true) :
    compressFile comp cwd st a b
      = (.ok (),
          ⟨setFile (setFile st.fs (resolveSegs cwd (join2 b (basename a ++ ".br"))) [])
            (resolveSegs cwd (join2 b (basename a ++ ".br"))) (comp c),
           st.openHandles⟩) := by
  have hro := openRead_ok cwd st a c hsrc
  have hw := openWrite_ok cwd ⟨st.fs, st.openHandles + 1⟩
    (join2 b (basename a ++ ".br")) hnd hpar
  simp [compressFile, hro, hw]

theorem decompressFile_ok (decomp : List Nat → Option (List Nat))
    (cwd : String) (st : IOState) (a b : String) (c dc : List Nat)
    (hsrc : lookupFile st.fs (resolveSegs cwd (normalize a)) = some c)
    (hdec : decomp c = some dc)
    (hnd : isDirB st.fs
      (resolveSegs cwd (join2 b (basenameExt (normalize a) ".br"))) = false)
    (hpar : isDirB st.fs
      (resolveSegs cwd (join2 b (basenameExt (normalize a) ".br"))).dropLast = true) :
    decompressFile decomp cwd st a b
      = (.ok (),
          ⟨setFile
            (setFile st.fs
              (resolveSegs cwd (join2 b (basenameExt (normalize a) ".br"))) [])
            (resolveSegs cwd (join2 b (basenameExt (normalize a) ".br"))) dc,
           st.openHandles⟩) := by
  have hro := openRead_ok cwd st (normalize a) c hsrc
  have hw := openWrite_ok cwd ⟨st.fs, st.openHandles + 1⟩
    (join2 b (basenameExt (normalize a) ".br")) hnd hpar
  simp [decompressFile, hro, hw, hdec]

/-- C9: for the copy-type operations (`cp` and `mv` through
`copyFileToDest`, `compress`, `decompress`), a pre-existing entry at the
derived target filename does not make the operation fail with an
already-exists error: the destination is opened in overwrite mode (`'w'`)
and its previous content is silently replaced by the transferred bytes.
The aliasing hypotheses keep the streamed-truncation corner (target equal
to source) out of scope. -/
theorem c9_overwrite_existing_target (comp : List Nat → List Nat)
    (decomp : List Nat → Option (List Nat)) (cwd : String) (st : IOState)
    (src dest : String) (c dc old : List Nat) :
    ((lookupFile st.fs (resolveSegs cwd src) = some c) →
      (lookupFile st.fs (resolveSegs cwd (join2 dest src)) = some old) →
      (isDirB st.fs (resolveSegs cwd (join2 dest src)) = false) →
      (isDirB st.fs (resolveSegs cwd (join2 dest src)).dropLast = true) →
      (resolveSegs cwd (join2 dest src) ≠ resolveSegs cwd src) →
      (copyFileToDest cwd st src dest).1 = .ok () ∧
      lookupFile ((copyFileToDest cwd st src dest).2).fs
        (resolveSegs cwd (join2 dest src)) = some c) ∧
    ((lookupFile st.fs (resolveSegs cwd src) = some c) →
      (lookupFile st.fs
        (resolveSegs cwd (join2 dest (basename src ++ ".br"))) = some old) →
      (isDirB st.fs (resolveSegs cwd (join2 dest (basename src ++ ".br"))) = false) →
      (isDirB st.fs
        (resolveSegs cwd (join2 dest (basename src ++ ".br"))).dropLast = true) →
      (resolveSegs cwd (join2 dest (basename src ++ ".br")) ≠ resolveSegs cwd src) →
      (compressFile comp cwd st src dest).1 = .ok () ∧
      lookupFile ((compressFile comp cwd st src dest).2).fs
        (resolveSegs cwd (join2 dest (basename src ++ ".br"))) = some (comp c)) ∧
    ((lookupFile st.fs (resolveSegs cwd (normalize src)) = some c) →
      (decomp c = some dc) →
      (lookupFile st.fs
        (resolveSegs cwd (join2 dest (basenameExt (normalize src) ".br")))
          = some old) →
      (isDirB st.fs
        (resolveSegs cwd (join2 dest (basenameExt (normalize src) ".br"))) = false) →
      (isDirB st.fs
        (resolveSegs cwd
          (join2 dest (basenameExt (normalize src) ".br"))).dropLast = true) →
      (resolveSegs cwd (join2 dest (basenameExt (normalize src) ".br"))
          ≠ resolveSegs cwd (normalize src)) →
      (decompressFile decomp cwd st src dest).1 = .ok () ∧
      lookupFile ((decompressFile decomp cwd st src dest).2).fs
        (resolveSegs cwd (join2 dest (basenameExt (normalize src) ".br")))
          = some dc) := by
  refine ⟨?_, ?_, ?_⟩
  · intro h1 _ h3 h4 _
    rw [copyFileToDest_ok cwd st src dest c h1 h3 h4]
    exact ⟨rfl, lookupFile_setFile_self _ _ _⟩
  · intro h1 _ h3 h4 _
    rw [compressFile_ok comp cwd st src dest c h1 h3 h4]
    exact ⟨rfl, lookupFile_setFile_self _ _ _⟩
  · intro h1 h2 _ h4 h5 _
    rw [decompressFile_ok decomp cwd st src dest c dc h1 h2 h4 h5]
    exact ⟨rfl, lookupFile_setFile_self _ _ _⟩

/-- C9 witness: a destination directory that already contains `s.txt` and
`s.txt.br`; copy, compress and decompress all succeed and overwrite. -/
theorem c9_witness :
    (copyFileToDest "/h"
        ⟨⟨[(["h", "s.txt"], [1, 2]), (["h", "d", "s.txt"], [9]),
           (["h", "d", "s.txt.br"], [8])], [[], ["h"], ["h", "d"]]⟩, 0⟩
        "s.txt" "d").1 = .ok () ∧
    lookupFile ((copyFileToDest "/h"
        ⟨⟨[(["h", "s.txt"], [1, 2]), (["h", "d", "s.txt"], [9]),
           (["h", "d", "s.txt.br"], [8])], [[], ["h"], ["h", "d"]]⟩, 0⟩
        "s.txt" "d").2).fs (resolveSegs "/h" (join2 "d" "s.txt"))
      = some [1, 2] :=
  (c9_overwrite_existing_target (fun c => c) (fun c => some c) "/h"
      ⟨⟨[(["h", "s.txt"], [1, 2]), (["h", "d", "s.txt"], [9]),
         (["h", "d", "s.txt.br"], [8])], [[], ["h"], ["h", "d"]]⟩, 0⟩
      "s.txt" "d" [1, 2] [1, 2] [9]).1
    (by decide) (by decide) (by decide) (by decide) (by decide)

end FM

namespace FM

/-- C10 (counterexample): stripping does not happen exactly when the
basename ends with `.br`: for a source whose basename is `.br` itself the
basename ends with `.br`, yet `path.basename(sourcePath, '.br')` does not
strip it (the result would be empty), so decompress writes `d/.br` while
the claimed rule derives the empty name. -/
theorem c10_counterexample :
    strEndsWith (basename (normalize ".br")) ".br" = true ∧
    basenameExt (normalize ".br") ".br" = ".br" ∧
    claimedDecompressName ".br" = "" ∧
    basenameExt (normalize ".br") ".br" ≠ claimedDecompressName ".br" ∧
    (decompressFile (fun c => some c) "/h"
        ⟨⟨[(["h", ".br"], [1])], [[], ["h"], ["h", "d"]]⟩, 0⟩ ".br" "d").1
      = .ok () ∧
    lookupFile ((decompressFile (fun c => some c) "/h"
        ⟨⟨[(["h", ".br"], [1])], [[], ["h"], ["h", "d"]]⟩, 0⟩ ".br" "d").2).fs
      ["h", "d", ".br"] = some [1] :=
  ⟨by decide, by decide, by decide, by decide, by decide, by decide⟩

/-- C10 (amended): decompress never rejects a source name; the output is
written to the destination directory under
`path.basename(path.join(src), '.br')`, and the `.br` suffix is stripped
exactly when the basename ends with `.br` and is not `.br` itself — in
particular a basename that does not end in `.br` passes through
unchanged. -/
theorem c10_decompress_suffix (decomp : List Nat → Option (List Nat))
    (cwd : String) (st : IOState) (src dest : String) (c dc : List Nat)
    (hsrc : lookupFile st.fs (resolveSegs cwd (normalize src)) = some c)
    (hdec : decomp c = some dc)
    (hnd : isDirB st.fs
      (resolveSegs cwd (join2 dest (basenameExt (normalize src) ".br"))) = false)
    (hpar : isDirB st.fs
      (resolveSegs cwd
        (join2 dest (basenameExt (normalize src) ".br"))).dropLast = true) :
    (decompressFile decomp cwd st src dest).1 = .ok () ∧
    lookupFile ((decompressFile decomp cwd st src dest).2).fs
      (resolveSegs cwd (join2 dest (basenameExt (normalize src) ".br")))
        = some dc ∧
    basenameExt (normalize src) ".br"
      = (if strEndsWith (basename (normalize src)) ".br" = true ∧
            basename (normalize src) ≠ ".br"
         then dropSuffix (basename (normalize src)) ".br"
         else basename (normalize src)) := by
  refine ⟨?_, ?_, ?_⟩
  · rw [decompressFile_ok decomp cwd st src dest c dc hsrc hdec hnd hpar]
  · rw [decompressFile_ok decomp cwd st src dest c dc hsrc hdec hnd hpar]
    exact lookupFile_setFile_self _ _ _
  · unfold basenameExt
    by_cases h1 : strEndsWith (basename (normalize src)) ".br" = true
    · by_cases h2 : basename (normalize src) = ".br"
      · simp [h1, h2]
      · simp [h1, h2]
    · simp [(by simpa using h1 :
        strEndsWith (basename (normalize src)) ".br" = false), h1]

/-- C10 witness: a source that does not end in `.br` is decompressed into
the destination under its unchanged basename. -/
theorem c10_witness :
    (decompressFile (fun c => some c) "/h"
        ⟨⟨[(["h", "q.txt"], [3])], [[], ["h"], ["h", "d"]]⟩, 0⟩ "q.txt" "d").1
      = .ok () ∧
    lookupFile ((decompressFile (fun c => some c) "/h"
        ⟨⟨[(["h", "q.txt"], [3])], [[], ["h"], ["h", "d"]]⟩, 0⟩ "q.txt" "d").2).fs
      (resolveSegs "/h" (join2 "d" (basenameExt (normalize "q.txt") ".br")))
      = some [3] :=
  ⟨(c10_decompress_suffix (fun c => some c) "/h"
      ⟨⟨[(["h", "q.txt"], [3])], [[], ["h"], ["h", "d"]]⟩, 0⟩ "q.txt" "d" [3] [3]
      (by decide) (by decide) (by decide) (by decide)).1,
    (c10_decompress_suffix (fun c => some c) "/h"
      ⟨⟨[(["h", "q.txt"], [3])], [[], ["h"], ["h", "d"]]⟩, 0⟩ "q.txt" "d" [3] [3]
      (by decide) (by decide) (by decide) (by decide)).2.1⟩

end FM

namespace FM

/-- C1: the compress/decompress round trip. For every file content, every
source file `F` with an ordinary basename and every pair of existing
destination directories `D1`, `D2` (whose entries do not collide with the
derived file names as directories), `compress(F, D1)` succeeds writing
`D1/basename(F).br`, `decompress` of that produced file into `D2`
succeeds, and the resulting file `D2/basename(F)` holds byte-for-byte the
original content, provided the brotli codec pair inverts
(`decomp (comp bs) = some bs`). -/
theorem c1_compress_decompress_roundtrip (comp : List Nat → List Nat)
    (decomp : List Nat → Option (List Nat))
    (hcodec : ∀ bs, decomp (comp bs) = some bs)
    (cwd : String) (st : IOState) (F D1 D2 : String) (content : List Nat)
    (hbn0 : basename F ≠ "") (hbn1 : basename F ≠ ".")
    (hbn2 : basename F ≠ "..")
    (hF : lookupFile st.fs (resolveSegs cwd F) = some content)
    (hD1 : isDirB st.fs (resolveSegs cwd D1) = true)
    (hD2 : isDirB st.fs (resolveSegs cwd D2) = true)
    (hnd1 : isDirB st.fs (resolveSegs cwd D1 ++ [basename F ++ ".br"]) = false)
    (hnd2 : isDirB st.fs (resolveSegs cwd D2 ++ [basename F]) = false) :
    (compressFile comp cwd st F D1).1 = .ok () ∧
    (decompressFile decomp cwd (compressFile comp cwd st F D1).2
        (join2 D1 (basename F ++ ".br")) D2).1 = .ok () ∧
    lookupFile
      ((decompressFile decomp cwd (compressFile comp cwd st F D1).2
          (join2 D1 (basename F ++ ".br")) D2).2).fs
      (resolveSegs cwd D2 ++ [basename F]) = some content := by
  have hnosF : '/' ∉ (basename F).data := basename_no_slash F
  obtain ⟨hw1, hdd1⟩ := append_br_wf (basename F) hnosF
  have hwF : WfSeg (basename F) := ⟨hbn0, hbn1, hnosF⟩
  have hk1 : resolveSegs cwd (join2 D1 (basename F ++ ".br"))
      = resolveSegs cwd D1 ++ [basename F ++ ".br"] :=
    resolveSegs_join2 cwd D1 _ hw1 hdd1
  have hk2 : resolveSegs cwd (join2 D2 (basename F))
      = resolveSegs cwd D2 ++ [basename F] :=
    resolveSegs_join2 cwd D2 _ hwF hbn2
  have hcnd : isDirB st.fs (resolveSegs cwd (join2 D1 (basename F ++ ".br"))) = false := by
    rw [hk1]
    exact hnd1
  have hcpar : isDirB st.fs
      (resolveSegs cwd (join2 D1 (basename F ++ ".br"))).dropLast = true := by
    rw [hk1, List.dropLast_concat]
    exact hD1
  have hcomp := compressFile_ok comp cwd st F D1 content hF hcnd hcpar
  have hbn1ne : basename F ++ ".br" ≠ ".br" :=
    append_ne_right (basename F) ".br" hbn0
  have hbase : basename (join2 D1 (basename F ++ ".br")) = basename F ++ ".br" :=
    basename_join2 D1 _ hw1 hdd1
  have hnormj : normalize (join2 D1 (basename F ++ ".br"))
      = join2 D1 (basename F ++ ".br") := normalize_join2 D1 _
  have hname : basenameExt (normalize (join2 D1 (basename F ++ ".br"))) ".br"
      = basename F := by
    rw [hnormj]
    unfold basenameExt
    rw [hbase]
    have hcond : (((basename F ++ ".br") != ".br") &&
        strEndsWith (basename F ++ ".br") ".br") = true := by
      simp [hbn1ne, strEndsWith_append]
    rw [if_pos hcond, dropSuffix_append]
  have hsrc2 : lookupFile
      (setFile (setFile st.fs (resolveSegs cwd (join2 D1 (basename F ++ ".br"))) [])
        (resolveSegs cwd (join2 D1 (basename F ++ ".br"))) (comp content))
      (resolveSegs cwd (normalize (join2 D1 (basename F ++ ".br"))))
        = some (comp content) := by
    rw [resolveSegs_normalize]
    exact lookupFile_setFile_self _ _ _
  have hnd : isDirB
      (setFile (setFile st.fs (resolveSegs cwd (join2 D1 (basename F ++ ".br"))) [])
        (resolveSegs cwd (join2 D1 (basename F ++ ".br"))) (comp content))
      (resolveSegs cwd
        (join2 D2 (basenameExt (normalize (join2 D1 (basename F ++ ".br"))) ".br")))
        = false := by
    rw [hname, hk2]
    exact hnd2
  have hpar : isDirB
      (setFile (setFile st.fs (resolveSegs cwd (join2 D1 (basename F ++ ".br"))) [])
        (resolveSegs cwd (join2 D1 (basename F ++ ".br"))) (comp content))
      (resolveSegs cwd
        (join2 D2 (basenameExt (normalize (join2 D1 (basename F ++ ".br"))) ".br"))).dropLast
        = true := by
    rw [hname, hk2, List.dropLast_concat]
    exact hD2
  have hdecomp := decompressFile_ok decomp cwd
    ⟨setFile (setFile st.fs (resolveSegs cwd (join2 D1 (basename F ++ ".br"))) [])
      (resolveSegs cwd (join2 D1 (basename F ++ ".br"))) (comp content),
     st.openHandles⟩
    (join2 D1 (basename F ++ ".br")) D2 (comp content) content
    hsrc2 (hcodec content) hnd hpar
  refine ⟨?_, ?_, ?_⟩
  · rw [hcomp]
  · rw [hcomp, hdecomp]
  · rw [hcomp, hdecomp]
    show lookupFile (setFile _ _ _) _ = some content
    rw [hname, hk2]
    exact lookupFile_setFile_self _ _ _

/-- C1 witness: a concrete file, two concrete directories and an
invertible codec pair. -/
theorem c1_witness :
    (compressFile (fun c => 0 :: c) "/h"
        ⟨⟨[(["h", "s.txt"], [1, 2, 3])], [[], ["h"], ["h", "d1"], ["h", "d2"]]⟩, 0⟩
        "s.txt" "d1").1 = .ok () ∧
    (decompressFile (fun c => some c.tail) "/h"
        (compressFile (fun c => 0 :: c) "/h"
          ⟨⟨[(["h", "s.txt"], [1, 2, 3])], [[], ["h"], ["h", "d1"], ["h", "d2"]]⟩, 0⟩
          "s.txt" "d1").2
        (join2 "d1" (basename "s.txt" ++ ".br")) "d2").1 = .ok () ∧
    lookupFile
      ((decompressFile (fun c => some c.tail) "/h"
          (compressFile (fun c => 0 :: c) "/h"
            ⟨⟨[(["h", "s.txt"], [1, 2, 3])], [[], ["h"], ["h", "d1"], ["h", "d2"]]⟩, 0⟩
            "s.txt" "d1").2
          (join2 "d1" (basename "s.txt" ++ ".br")) "d2").2).fs
      (resolveSegs "/h" "d2" ++ [basename "s.txt"]) = some [1, 2, 3] :=
  c1_compress_decompress_roundtrip (fun c => 0 :: c) (fun c => some c.tail)
    (fun bs => rfl) "/h"
    ⟨⟨[(["h", "s.txt"], [1, 2, 3])], [[], ["h"], ["h", "d1"], ["h", "d2"]]⟩, 0⟩
    "s.txt" "d1" "d2" [1, 2, 3]
    (by decide) (by decide) (by decide) (by decide) (by decide) (by decide)
    (by decide) (by decide)

end FM
